import Mathlib

/-!
# Poly: a dense polynomial over `int` coefficients (poly.h, poly.cpp)

A shallow embedding of the class `Poly` and a verification of its contract.  The
declarations live in the namespace `PolyCpp`, since Mathlib has a `Poly` of its own.

Names.  Data members and member functions keep their names (`coeffPtr`, `maxExponent`,
`getCoeff`, `setCoeff`).  The constructors are `ctor`, `ctorDefault` and `copy`; the
operators `+ - * += -= *= = == != << >>` are `add sub mul addAssign subAssign mulAssign
assign eq ne output input`.

Modelling conventions

* An object is the pair of its two data members: the buffer `coeffPtr` (a list of
  coefficients, index = exponent) and `maxExponent`.  Nothing ties the two together in
  the type: the storage invariant is the predicate `Poly.StorageInv`.
* `int` is the 32-bit two's complement integer.  A value is an `Int`; every `+`, `-`,
  `*` the source performs on coefficients is followed by `wrapInt`, the reduction into
  `[INT_MIN, INT_MAX]`.  `Poly.CoeffsInt` says that the stored coefficients are `int`s.
* Exponents and buffer sizes are computed without reduction and `new` always succeeds:
  an index expression leaves the `int` range only for buffers of 2^31 entries and more.
* A read or write of `coeffPtr[i]` is `readAt` / `writeAt`, total functions: past the
  end of the buffer (where C++ gives no meaning) a read gives 0 and a write does
  nothing.  `readChecked` / `writeChecked` answer `none` for an index outside the
  buffer instead; `getCoeffChecked` and `setCoeffChecked` are the accessors over them.
* The stream of `operator>>` is the list of the integer tokens still to be read.
* A member function that mutates `*this` takes the object and returns the new object;
  a `const Poly&` argument is a value that the function cannot change.  Where the
  argument may be `*this` itself and the function writes to `*this` while it still
  reads the argument, the aliased call has a definition of its own.
* A `for` loop whose bound is not touched by its body is `forLoop`, a left fold over
  the counter values in order.  A loop whose bound is read from the object that its
  body updates is a recursion on fuel that evaluates the condition in every round and
  answers `none` when the fuel is used up.
-/

namespace PolyCpp

/-! ## Machine integers -/

/-- The least value of a 32-bit `int`. -/
def INT_MIN : Int := -2147483648

/-- The greatest value of a 32-bit `int`. -/
def INT_MAX : Int := 2147483647

/-- Reduction of a mathematical integer to the 32-bit two's complement `int` that is
congruent to it modulo 2^32. -/
def wrapInt (x : Int) : Int := (x + 2147483648) % 4294967296 - 2147483648

/-- The value is representable as an `int`. -/
def IsInt (x : Int) : Prop := INT_MIN ≤ x ∧ x ≤ INT_MAX

instance (x : Int) : Decidable (IsInt x) := by unfold IsInt; infer_instance

/-! ## Loops and buffers -/

/-- The loop `for (int i = 0; i < n; i++) s = body(i, s)` with a bound `n` that the
body does not change. -/
def forLoop {σ : Type} (n : Int) (body : Int → σ → σ) (s : σ) : σ :=
  (List.range n.toNat).foldl (fun acc (i : Nat) => body (i : Int) acc) s

/-- The loop `for (int i = start; i >= 0; i--) s = body(i, s)`. -/
def forLoopDown {σ : Type} (start : Int) (body : Int → σ → σ) (s : σ) : σ :=
  (List.range (start + 1).toNat).reverse.foldl (fun acc (i : Nat) => body (i : Int) acc) s

/-- The buffer `new int[n]()`: `n` entries, all zero. -/
def newArray (n : Int) : List Int := List.replicate n.toNat 0

/-- The read `buf[i]`. -/
def readAt (buf : List Int) (i : Int) : Int := buf.getD i.toNat 0

/-- The write `buf[i] = v`. -/
def writeAt (buf : List Int) (i : Int) (v : Int) : List Int := buf.set i.toNat v

/-! ## The class -/

/-- The data members of `class Poly`. -/
structure Poly where
  /-- `int* coeffPtr`: array storing the polynomial. -/
  coeffPtr : List Int
  /-- `int maxExponent`: maximum exponent for the current array. -/
  maxExponent : Int
deriving DecidableEq, Repr

namespace Poly

/-- The storage invariant of the data model: `maxExponent` is not negative and the
buffer has exactly `maxExponent + 1` entries. -/
def StorageInv (p : Poly) : Prop :=
  0 ≤ p.maxExponent ∧ (p.coeffPtr.length : Int) = p.maxExponent + 1

instance (p : Poly) : Decidable (StorageInv p) := by unfold StorageInv; infer_instance

/-- Every stored coefficient is an `int`. -/
def CoeffsInt (p : Poly) : Prop := ∀ c ∈ p.coeffPtr, IsInt c

instance (p : Poly) : Decidable (CoeffsInt p) := by unfold CoeffsInt; infer_instance

/-- The constructor `Poly::Poly(int coeff, int exponent)`. -/
def ctor (coeff exponent : Int) : Poly :=
  let maxExponent := if exponent < 0 then 0 else exponent
  let coeffPtr := newArray (maxExponent + 1)
  { coeffPtr := writeAt coeffPtr maxExponent coeff, maxExponent := maxExponent }

/-- The default construction `Poly()`, both arguments defaulted to 0. -/
def ctorDefault : Poly := ctor 0 0

/-- The copy constructor `Poly::Poly(const Poly& other)`. -/
def copy (other : Poly) : Poly :=
  let maxExponent := other.maxExponent
  let coeffPtr := newArray (maxExponent + 1)
  { coeffPtr := forLoop (maxExponent + 1)
      (fun power buf => writeAt buf power (readAt other.coeffPtr power)) coeffPtr,
    maxExponent := maxExponent }

/-- The accessor `Poly::getCoeff(int exponent) const`. -/
def getCoeff (p : Poly) (exponent : Int) : Int :=
  if exponent < 0 ∨ exponent > p.maxExponent then 0
  else readAt p.coeffPtr exponent

/-- The mutator `Poly::setCoeff(int coeff, int exponent)`. -/
def setCoeff (p : Poly) (coeff exponent : Int) : Poly :=
  if exponent ≥ 0 then
    let grown : Poly :=
      if exponent > p.maxExponent then
        let temp := newArray (exponent + 1)
        let temp := forLoop (p.maxExponent + 1)
          (fun power t => writeAt t power (readAt p.coeffPtr power)) temp
        { coeffPtr := temp, maxExponent := exponent }
      else p
    { coeffPtr := writeAt grown.coeffPtr exponent coeff, maxExponent := grown.maxExponent }
  else p

/-- The operator `Poly::operator+(const Poly& right) const`. -/
def add (self right : Poly) : Poly :=
  forLoop (right.maxExponent + 1)
    (fun power sum =>
      setCoeff sum (wrapInt (getCoeff self power + getCoeff right power)) power)
    (copy self)

/-- The operator `Poly::operator-(const Poly& right) const`. -/
def sub (self right : Poly) : Poly :=
  forLoop (right.maxExponent + 1)
    (fun power difference =>
      setCoeff difference (wrapInt (getCoeff self power - getCoeff right power)) power)
    (copy self)

/-- The two nested loops shared by `operator*` and `operator*=`, from the empty
`product`. -/
def mulLoops (self right : Poly) (product : Poly) : Poly :=
  forLoop (self.maxExponent + 1)
    (fun leftPow product =>
      forLoop (right.maxExponent + 1)
        (fun rightPow product =>
          setCoeff product
            (wrapInt (wrapInt (getCoeff self leftPow * getCoeff right rightPow)
              + getCoeff product (leftPow + rightPow)))
            (leftPow + rightPow))
        product)
    product

/-- The operator `Poly::operator*(const Poly& right) const`. -/
def mul (self right : Poly) : Poly :=
  mulLoops self right ctorDefault

/-- The operator `Poly::operator+=(const Poly& right)`, `right` another object. -/
def addAssign (self right : Poly) : Poly :=
  forLoop (right.maxExponent + 1)
    (fun power self =>
      setCoeff self (wrapInt (getCoeff self power + getCoeff right power)) power)
    self

/-- The operator `Poly::operator-=(const Poly& right)`, `right` another object. -/
def subAssign (self right : Poly) : Poly :=
  forLoop (right.maxExponent + 1)
    (fun power self =>
      setCoeff self (wrapInt (getCoeff self power - getCoeff right power)) power)
    self

/-- The loop of `operator+=` and of `operator-=` (with `op` the `+` or the `-`) in the
call `a += a`, where `right` is `*this`: both reads of the body and the bound
`right.maxExponent + 1` of the condition come from the object that the body updates.
`none` is the answer when the fuel runs out before the condition fails. -/
def compoundSelfLoop (op : Int → Int → Int) : Nat → Int → Poly → Option Poly
  | 0, _, _ => none
  | fuel + 1, power, self =>
    if power < self.maxExponent + 1 then
      compoundSelfLoop op fuel (power + 1)
        (setCoeff self (wrapInt (op (getCoeff self power) (getCoeff self power))) power)
    else some self

/-- The operator `Poly::operator+=(const Poly& right)` in the call `a += a`. -/
def addAssignSelf (self : Poly) : Option Poly :=
  compoundSelfLoop (fun x y => x + y) ((self.maxExponent + 1).toNat + 1) 0 self

/-- The operator `Poly::operator-=(const Poly& right)` in the call `a -= a`. -/
def subAssignSelf (self : Poly) : Option Poly :=
  compoundSelfLoop (fun x y => x - y) ((self.maxExponent + 1).toNat + 1) 0 self

/-- The copying loop of `operator=`:
`for (power = 0; power < maxExponent + 1; power++) setCoeff(right.getCoeff(power), power)`.
Its bound is read from the object that the body updates, so the condition is evaluated
anew in every round; `none` is the answer when the fuel runs out before the condition
fails. -/
def assignLoop (right : Poly) : Nat → Int → Poly → Option Poly
  | 0, _, _ => none
  | fuel + 1, power, self =>
    if power < self.maxExponent + 1 then
      assignLoop right fuel (power + 1) (setCoeff self (getCoeff right power) power)
    else some self

/-- The operator `Poly::operator=(const Poly& right)`.  `sameObject` is the outcome of
the address test `&right == this`. -/
def assign (self right : Poly) (sameObject : Bool) : Option Poly :=
  if !sameObject then
    let fresh : Poly :=
      { coeffPtr := newArray (right.maxExponent + 1), maxExponent := right.maxExponent }
    assignLoop right ((right.maxExponent + 1).toNat + 1) 0 fresh
  else some self

/-- The operator `Poly::operator*=(const Poly& right)`: the product goes to a local
object, which is then assigned to `*this`. Nothing is written to `*this` before the
product is complete, so `right` may be `*this` itself. -/
def mulAssign (self right : Poly) : Option Poly :=
  let product := mulLoops self right ctorDefault
  assign self product false

/-- The comparison loop of `operator==` over the remaining counter values. -/
def eqLoop (p other : Poly) : List Nat → Bool
  | [] => true
  | power :: rest =>
    if getCoeff p power ≠ getCoeff other power then false
    else eqLoop p other rest

/-- The operator `Poly::operator==(const Poly& other) const`. -/
def eq (p other : Poly) : Bool :=
  if p.maxExponent = other.maxExponent then
    eqLoop p other (List.range (p.maxExponent + 1).toNat)
  else false

/-- The operator `Poly::operator!=(const Poly& other) const`. -/
def ne (p other : Poly) : Bool := !(eq p other)

/-- The state of `operator<<` while it runs: the stream and the flag `printed`. -/
structure OutState where
  /-- What the stream holds. -/
  output : String
  /-- Set once a nonzero coefficient has been written. -/
  printed : Bool
deriving DecidableEq, Repr

/-- One round of the loop of `operator<<`, for the exponent `power`. -/
def outputStep (poly : Poly) (power : Int) (s : OutState) : OutState :=
  let coefficient := getCoeff poly power
  if coefficient ≠ 0 then
    let output := s.output ++ " "
    let output := if coefficient > 0 then output ++ "+" else output
    let output := output ++ toString coefficient
    let output :=
      if power ≠ 0 then
        let output := output ++ "x"
        if power ≠ 1 then output ++ "^" ++ toString power else output
      else output
    { output := output, printed := true }
  else s

/-- The operator `operator<<(ostream& output, const Poly& poly)`: the stream after the
call. -/
def output (out : String) (poly : Poly) : String :=
  let s := forLoopDown poly.maxExponent (outputStep poly) { output := out, printed := false }
  if !s.printed then s.output ++ " 0" else s.output

/-- The text that `operator<<` writes for `poly`. -/
def format (poly : Poly) : String := output "" poly

/-- The operator `operator>>(istream& input, Poly& poly)` on the stream of the integer
tokens still to be read: the tokens left after the call and the object after the call.
`none` is the answer for a stream that ends before the pair `-1 -1` has been read, which
the source leaves to the stream. -/
def input : List Int → Poly → Option (List Int × Poly)
  | coeff :: exponent :: rest, poly =>
    if coeff = -1 ∧ exponent = -1 then some (rest, poly)
    else input rest (setCoeff poly coeff exponent)
  | _, _ => none

/-- The read `buf[i]`, with `none` for an index outside the buffer. -/
def readChecked (buf : List Int) (i : Int) : Option Int :=
  if 0 ≤ i ∧ i < (buf.length : Int) then some (readAt buf i) else none

/-- The write `buf[i] = v`, with `none` for an index outside the buffer. -/
def writeChecked (buf : List Int) (i : Int) (v : Int) : Option (List Int) :=
  if 0 ≤ i ∧ i < (buf.length : Int) then some (writeAt buf i v) else none

/-- The loop `for (int i = 0; i < n; i++) s = body(i, s)` with a body that may stop on
an access outside a buffer. -/
def forLoopChecked {σ : Type} (n : Int) (body : Int → σ → Option σ) (s : σ) : Option σ :=
  (List.range n.toNat).foldlM (fun acc (i : Nat) => body (i : Int) acc) s

/-- The accessor `Poly::getCoeff(int exponent) const` over the checked read. -/
def getCoeffChecked (p : Poly) (exponent : Int) : Option Int :=
  if exponent < 0 ∨ exponent > p.maxExponent then some 0
  else readChecked p.coeffPtr exponent

/-- The mutator `Poly::setCoeff(int coeff, int exponent)` over the checked read and
write. -/
def setCoeffChecked (p : Poly) (coeff exponent : Int) : Option Poly :=
  if exponent ≥ 0 then
    (if exponent > p.maxExponent then
      (forLoopChecked (p.maxExponent + 1)
        (fun power t => (readChecked p.coeffPtr power).bind (fun v => writeChecked t power v))
        (newArray (exponent + 1))).map
        (fun temp => ({ coeffPtr := temp, maxExponent := exponent } : Poly))
    else some p).bind
      (fun grown => (writeChecked grown.coeffPtr exponent coeff).map
        (fun buf => ({ coeffPtr := buf, maxExponent := grown.maxExponent } : Poly)))
  else some p

/-! ## Definitions that follow the specification -/

/-- The token of the specification for a nonzero coefficient `c` at exponent `e`. -/
def specToken (c e : Int) : String :=
  " " ++ (if c > 0 then "+" else "") ++ toString c ++
    (if e = 0 then "" else if e = 1 then "x" else "x^" ++ toString e)

/-- The text of the specification: the tokens of the exponents from `maxExponent` down
to 0 whose coefficient is not zero, concatenated. -/
def specFormat (p : Poly) : String :=
  String.join
    (((List.range (p.maxExponent + 1).toNat).reverse.filter
        (fun (e : Nat) => getCoeff p (e : Int) ≠ 0)).map
      (fun (e : Nat) => specToken (getCoeff p (e : Int)) (e : Int)))

/-- The term of the pair `(i, j)` in the coefficient of exponent `k` of a product. -/
def convTerm (a b : Poly) (k : Int) (i j : Nat) : Int :=
  if (i : Int) + (j : Int) = k then getCoeff a i * getCoeff b j else 0

/-- The convolution sum of the specification at exponent `k`: the sum of
`a.getCoeff(i) * b.getCoeff(j)` over the pairs with `0 ≤ i ≤ a.maxExponent`,
`0 ≤ j ≤ b.maxExponent` and `i + j = k`, in the integers. -/
def convolution (a b : Poly) (k : Int) : Int :=
  ((List.range (a.maxExponent + 1).toNat).map (fun i =>
    ((List.range (b.maxExponent + 1).toNat).map (fun j => convTerm a b k i j)).sum)).sum

/-- The token stream of the specification for a list of coefficient/exponent pairs. -/
def tokensOf (ps : List (Int × Int)) : List Int :=
  ps.flatMap (fun pr => [pr.1, pr.2])

/-- The object of the specification after the pairs of `ps`: `setCoeff(coeff, exponent)`
applied for each pair in order. -/
def applyPairs (ps : List (Int × Int)) (p : Poly) : Poly :=
  ps.foldl (fun q pr => setCoeff q pr.1 pr.2) p

end Poly

/-! ## Machine integers, loops and buffers: lemmas -/

theorem wrapInt_of_isInt {x : Int} (h : IsInt x) : wrapInt x = x := by
  unfold IsInt INT_MIN INT_MAX at h; unfold wrapInt; omega

theorem isInt_wrapInt (x : Int) : IsInt (wrapInt x) := by
  unfold IsInt INT_MIN INT_MAX wrapInt; omega

theorem wrapInt_add_wrapInt (x y : Int) : wrapInt (wrapInt x + wrapInt y) = wrapInt (x + y) := by
  unfold wrapInt; omega

theorem forLoop_of_nonpos {σ : Type} (n : Int) (hn : n ≤ 0) (body : Int → σ → σ) (s : σ) :
    forLoop n body s = s := by
  have : n.toNat = 0 := by omega
  simp [forLoop, this]

theorem forLoop_succ {σ : Type} (k : Nat) (body : Int → σ → σ) (s : σ) :
    forLoop ((k : Int) + 1) body s = body k (forLoop k body s) := by
  have : ((k : Int) + 1).toNat = k + 1 := by omega
  simp [forLoop, this, List.range_succ, List.foldl_append]

theorem length_newArray (n : Int) : (newArray n).length = n.toNat := by
  simp [newArray]

theorem length_writeAt (buf : List Int) (i v : Int) : (writeAt buf i v).length = buf.length := by
  simp [writeAt]

theorem readAt_newArray (n i : Int) : readAt (newArray n) i = 0 := by
  simp [readAt, newArray, List.getD_eq_getElem?_getD, List.getElem?_replicate]
  split <;> simp

theorem readAt_writeAt (buf : List Int) (i v j : Int) :
    readAt (writeAt buf i v) j =
      if i.toNat = j.toNat ∧ i.toNat < buf.length then v else readAt buf j := by
  simp only [readAt, writeAt, List.getD_eq_getElem?_getD, List.getElem?_set]
  by_cases h : i.toNat = j.toNat
  · by_cases h2 : i.toNat < buf.length
    · rw [if_pos h, if_pos h2, if_pos ⟨h, h2⟩]; rfl
    · rw [if_pos h, if_neg h2, if_neg (by tauto), List.getElem?_eq_none (by omega)]
  · rw [if_neg h, if_neg (by tauto)]

theorem list_eq_of_readAt (l₁ l₂ : List Int) (hlen : l₁.length = l₂.length)
    (h : ∀ j : Nat, j < l₁.length → readAt l₁ j = readAt l₂ j) : l₁ = l₂ := by
  apply List.ext_getElem hlen
  intro n h1 h2
  have := h n h1
  simp only [readAt, Int.toNat_ofNat, List.getD_eq_getElem?_getD] at this
  rw [List.getElem?_eq_getElem h1, List.getElem?_eq_getElem h2] at this
  simpa using this

theorem length_copyLoop (src : List Int) (k : Nat) (buf : List Int) :
    (forLoop (k : Int) (fun power t => writeAt t power (readAt src power)) buf).length
      = buf.length := by
  induction k with
  | zero => simp [forLoop]
  | succ k ih => rw [Nat.cast_succ, forLoop_succ, length_writeAt, ih]

theorem readAt_copyLoop (src : List Int) (k : Nat) (buf : List Int) (j : Nat) :
    readAt (forLoop (k : Int) (fun power t => writeAt t power (readAt src power)) buf) j
      = if j < k ∧ j < buf.length then readAt src j else readAt buf j := by
  induction k with
  | zero => simp [forLoop]
  | succ k ih =>
    rw [Nat.cast_succ, forLoop_succ, readAt_writeAt, length_copyLoop, ih]
    simp only [Int.toNat_ofNat]
    by_cases h1 : k = j
    · subst h1
      by_cases h2 : k < buf.length
      · rw [if_pos ⟨rfl, h2⟩, if_pos ⟨by omega, h2⟩]
      · rw [if_neg (by tauto), if_neg (by tauto), if_neg (by tauto)]
    · rw [if_neg (by tauto)]
      by_cases h3 : j < k ∧ j < buf.length
      · rw [if_pos h3, if_pos ⟨by omega, h3.2⟩]
      · rw [if_neg h3, if_neg (by omega)]

namespace Poly

/-! ## The copy loop, `copy` and `setCoeff` -/

theorem copy_eq_self (p : Poly) (hp : StorageInv p) : copy p = p := by
  obtain ⟨h0, hlen⟩ := hp
  obtain ⟨buf, m⟩ := p
  simp only at h0 hlen
  have hm : m + 1 = ((m + 1).toNat : Int) := by omega
  simp only [copy, Poly.mk.injEq, and_true]
  rw [hm]
  apply list_eq_of_readAt
  · rw [length_copyLoop, length_newArray]; omega
  · intro j hj
    rw [length_copyLoop, length_newArray] at hj
    rw [readAt_copyLoop, length_newArray, if_pos ⟨by omega, by omega⟩]

theorem setCoeff_of_neg (p : Poly) (coeff exponent : Int) (h : exponent < 0) :
    setCoeff p coeff exponent = p := by
  unfold setCoeff; rw [if_neg (by omega)]

theorem setCoeff_of_fits (p : Poly) (coeff exponent : Int) (h : 0 ≤ exponent)
    (h2 : exponent ≤ p.maxExponent) :
    setCoeff p coeff exponent
      = { coeffPtr := writeAt p.coeffPtr exponent coeff, maxExponent := p.maxExponent } := by
  unfold setCoeff; rw [if_pos (by omega)]; simp only [if_neg (show ¬ exponent > p.maxExponent by omega)]

theorem setCoeff_of_grows (p : Poly) (coeff exponent : Int) (h : 0 ≤ exponent)
    (h2 : p.maxExponent < exponent) :
    setCoeff p coeff exponent
      = { coeffPtr := writeAt (forLoop (p.maxExponent + 1)
            (fun power t => writeAt t power (readAt p.coeffPtr power))
            (newArray (exponent + 1))) exponent coeff,
          maxExponent := exponent } := by
  unfold setCoeff; rw [if_pos (by omega)]; simp only [if_pos (show exponent > p.maxExponent by omega)]

theorem maxExponent_setCoeff (p : Poly) (coeff exponent : Int) (h : 0 ≤ exponent) :
    (setCoeff p coeff exponent).maxExponent = max p.maxExponent exponent := by
  by_cases h2 : exponent ≤ p.maxExponent
  · rw [setCoeff_of_fits _ _ _ h h2]; simp only; omega
  · rw [setCoeff_of_grows _ _ _ h (by omega)]; simp only; omega

theorem storageInv_setCoeff (p : Poly) (coeff exponent : Int) (hp : StorageInv p) :
    StorageInv (setCoeff p coeff exponent) := by
  by_cases h : 0 ≤ exponent
  · obtain ⟨h0, hlen⟩ := hp
    by_cases h2 : exponent ≤ p.maxExponent
    · rw [setCoeff_of_fits _ _ _ h h2]
      simp only [StorageInv, length_writeAt]; omega
    · have hm : p.maxExponent + 1 = ((p.maxExponent + 1).toNat : Int) := by omega
      rw [setCoeff_of_grows _ _ _ h (by omega)]
      simp only [StorageInv, length_writeAt]
      rw [hm, length_copyLoop, length_newArray]; omega
  · rw [setCoeff_of_neg _ _ _ (by omega)]; exact hp

theorem getCoeff_setCoeff (p : Poly) (coeff exponent : Int) (hp : StorageInv p)
    (h : 0 ≤ exponent) (k : Int) :
    getCoeff (setCoeff p coeff exponent) k = if k = exponent then coeff else getCoeff p k := by
  obtain ⟨h0, hlen⟩ := hp
  by_cases h2 : exponent ≤ p.maxExponent
  · rw [setCoeff_of_fits _ _ _ h h2]
    unfold getCoeff; simp only
    by_cases hk : k < 0 ∨ k > p.maxExponent
    · rw [if_pos hk, if_neg (by omega), if_pos hk]
    · rw [if_neg hk, if_neg hk, readAt_writeAt]
      by_cases hke : k = exponent
      · rw [if_pos hke, if_pos ⟨by omega, by omega⟩]
      · rw [if_neg hke, if_neg (by omega)]
  · have hm : p.maxExponent + 1 = ((p.maxExponent + 1).toNat : Int) := by omega
    rw [setCoeff_of_grows _ _ _ h (by omega)]
    unfold getCoeff; simp only
    by_cases hk : k < 0 ∨ k > exponent
    · rw [if_pos hk, if_neg (by omega), if_pos (by omega)]
    · have hkn : k = (k.toNat : Int) := by omega
      rw [if_neg hk, readAt_writeAt, hm, length_copyLoop, length_newArray]
      by_cases hke : k = exponent
      · rw [if_pos hke, if_pos ⟨by omega, by omega⟩]
      · rw [if_neg hke, if_neg (by omega), hkn, readAt_copyLoop, length_newArray, ← hkn]
        by_cases hkm : k > p.maxExponent
        · rw [if_neg (by omega), if_pos (by omega), readAt_newArray]
        · rw [if_pos ⟨by omega, by omega⟩, if_neg (by omega)]

/-! ## Accessors and constructors (C1 to C4) -/

theorem storageInv_ctor (coeff exponent : Int) : StorageInv (ctor coeff exponent) := by
  simp only [ctor, StorageInv, length_writeAt, length_newArray]
  split <;> omega

theorem maxExponent_ctor (coeff exponent : Int) :
    (ctor coeff exponent).maxExponent = max exponent 0 := by
  simp only [ctor]
  split <;> omega

theorem getCoeff_ctor (coeff exponent k : Int) :
    getCoeff (ctor coeff exponent) k = if k = max exponent 0 then coeff else 0 := by
  have hm : (if exponent < 0 then (0 : Int) else exponent) = max exponent 0 := by
    split <;> omega
  simp only [getCoeff, ctor, hm]
  by_cases hk : k < 0 ∨ k > max exponent 0
  · rw [if_pos hk, if_neg (by omega)]
  · rw [if_neg hk, readAt_writeAt, length_newArray, readAt_newArray]
    by_cases hke : k = max exponent 0
    · rw [if_pos hke, if_pos ⟨by omega, by omega⟩]
    · rw [if_neg hke, if_neg (by omega)]

theorem coeffPtr_ctor (coeff exponent : Int) :
    (ctor coeff exponent).coeffPtr = List.replicate (max exponent 0).toNat 0 ++ [coeff] := by
  have hm : (if exponent < 0 then (0 : Int) else exponent) = max exponent 0 := by
    split <;> omega
  have h1 : (max exponent 0 + 1).toNat = (max exponent 0).toNat + 1 := by omega
  simp only [ctor, hm, newArray, writeAt, h1]
  generalize (max exponent 0).toNat = n
  induction n with
  | zero => rfl
  | succ n ih => rw [List.replicate_succ, List.set_cons_succ, ih]; rfl

/-- C1. `getCoeff` answers 0 for an exponent below 0 or above `maxExponent` and the entry
of the buffer at index `exponent` otherwise; under the storage invariant that entry
exists. It is a total function of the object and the exponent, with no other result. -/
theorem getCoeff_spec (p : Poly) (e : Int) :
    ((e < 0 ∨ e > p.maxExponent) → getCoeff p e = 0) ∧
    ((0 ≤ e ∧ e ≤ p.maxExponent) → getCoeff p e = readAt p.coeffPtr e) ∧
    (StorageInv p → (0 ≤ e ∧ e ≤ p.maxExponent) →
      p.coeffPtr[e.toNat]? = some (getCoeff p e)) := by
  refine ⟨fun h => ?_, fun h => ?_, fun hp h => ?_⟩
  · unfold getCoeff; rw [if_pos h]
  · unfold getCoeff; rw [if_neg (by omega)]
  · obtain ⟨h0, hlen⟩ := hp
    have hlt : e.toNat < p.coeffPtr.length := by omega
    unfold getCoeff readAt
    rw [if_neg (by omega), List.getD_eq_getElem?_getD, List.getElem?_eq_getElem hlt]
    rfl

/-- Instance of C1 on the object with buffer `[2,0,0,0,7]`: exponents -1 and 5 read 0,
exponent 4 reads the stored 7. -/
theorem getCoeff_spec_witness :
    getCoeff ⟨[2, 0, 0, 0, 7], 4⟩ (-1) = 0 ∧ getCoeff ⟨[2, 0, 0, 0, 7], 4⟩ 5 = 0 ∧
    getCoeff ⟨[2, 0, 0, 0, 7], 4⟩ 4 = readAt [2, 0, 0, 0, 7] 4 ∧
    ([2, 0, 0, 0, 7] : List Int)[(4 : Int).toNat]? = some (getCoeff ⟨[2, 0, 0, 0, 7], 4⟩ 4) :=
  ⟨(getCoeff_spec ⟨[2, 0, 0, 0, 7], 4⟩ (-1)).1 (by decide),
   (getCoeff_spec ⟨[2, 0, 0, 0, 7], 4⟩ 5).1 (by decide),
   (getCoeff_spec ⟨[2, 0, 0, 0, 7], 4⟩ 4).2.1 (by decide),
   (getCoeff_spec ⟨[2, 0, 0, 0, 7], 4⟩ 4).2.2 (by decide) (by decide)⟩

/-- C2. On an object that satisfies the storage invariant, `setCoeff(c, e)` with
`e >= 0` makes `getCoeff(e)` equal to `c`, leaves `getCoeff(k)` as it was for every other
`k` (so the positions between the old `maxExponent` and `e` read 0), and sets
`maxExponent` to the maximum of its old value and `e`: neither `maxExponent` nor the
buffer length decreases. From `Poly(2,0)`, `setCoeff(7,4)` gives `maxExponent` 4 and the
buffer `[2,0,0,0,7]`. -/
theorem setCoeff_spec (p : Poly) (c e : Int) (hp : StorageInv p) (he : 0 ≤ e) :
    getCoeff (setCoeff p c e) e = c ∧
    (∀ k : Int, k ≠ e → getCoeff (setCoeff p c e) k = getCoeff p k) ∧
    (∀ k : Int, p.maxExponent < k → k < e → getCoeff (setCoeff p c e) k = 0) ∧
    (setCoeff p c e).maxExponent = max p.maxExponent e ∧
    p.maxExponent ≤ (setCoeff p c e).maxExponent ∧
    p.coeffPtr.length ≤ (setCoeff p c e).coeffPtr.length ∧
    setCoeff (ctor 2 0) 7 4 = ⟨[2, 0, 0, 0, 7], 4⟩ := by
  have hinv := storageInv_setCoeff p c e hp
  have hmax := maxExponent_setCoeff p c e he
  refine ⟨?_, fun k hk => ?_, fun k h1 h2 => ?_, hmax, ?_, ?_, by decide⟩
  · rw [getCoeff_setCoeff p c e hp he, if_pos rfl]
  · rw [getCoeff_setCoeff p c e hp he, if_neg hk]
  · rw [getCoeff_setCoeff p c e hp he, if_neg (by omega)]
    unfold getCoeff; rw [if_pos (by omega)]
  · omega
  · have h1 := hp.2
    have h2 := hinv.2
    omega

/-- Instance of C2: `setCoeff(7, 4)` on `Poly(2,0)`. -/
theorem setCoeff_spec_witness :
    StorageInv (ctor 2 0) ∧ (0 : Int) ≤ 4 ∧
    getCoeff (setCoeff (ctor 2 0) 7 4) 4 = 7 ∧
    (setCoeff (ctor 2 0) 7 4).maxExponent = max (ctor 2 0).maxExponent 4 :=
  ⟨by decide, by decide,
   (setCoeff_spec (ctor 2 0) 7 4 (by decide) (by decide)).1,
   (setCoeff_spec (ctor 2 0) 7 4 (by decide) (by decide)).2.2.2.1⟩

/-- C3. `setCoeff(c, e)` with `e < 0` returns the object it was given: the same
`maxExponent` and the same buffer. The function is total, there is no error result. -/
theorem setCoeff_negative (p : Poly) (c e : Int) (he : e < 0) :
    setCoeff p c e = p ∧
    (setCoeff p c e).maxExponent = p.maxExponent ∧
    (setCoeff p c e).coeffPtr = p.coeffPtr ∧
    ∀ k : Int, getCoeff (setCoeff p c e) k = getCoeff p k := by
  rw [setCoeff_of_neg p c e he]
  exact ⟨rfl, rfl, rfl, fun _ => rfl⟩

/-- Instance of C3: `setCoeff(9, -2)` on the object with buffer `[2,0,0,0,7]`. -/
theorem setCoeff_negative_witness :
    (-2 : Int) < 0 ∧ setCoeff ⟨[2, 0, 0, 0, 7], 4⟩ 9 (-2) = ⟨[2, 0, 0, 0, 7], 4⟩ :=
  ⟨by decide, (setCoeff_negative ⟨[2, 0, 0, 0, 7], 4⟩ 9 (-2) (by decide)).1⟩

/-- C4. `Poly(c, e)` has `maxExponent = max(e, 0)`, coefficient `c` at exponent
`max(e, 0)` and coefficient 0 at every other exponent; its buffer is `max(e, 0)` zeros
followed by `c`. A negative exponent is clamped to 0 with `c` as the constant term:
`Poly(c, -3)` is `[c]`, and `Poly()` is `[0]`. -/
theorem ctor_spec (c e : Int) :
    (ctor c e).maxExponent = max e 0 ∧
    getCoeff (ctor c e) (max e 0) = c ∧
    (∀ k : Int, k ≠ max e 0 → getCoeff (ctor c e) k = 0) ∧
    (ctor c e).coeffPtr = List.replicate (max e 0).toNat 0 ++ [c] ∧
    (e < 0 → ctor c e = ⟨[c], 0⟩) ∧
    ctor c (-3) = ⟨[c], 0⟩ ∧
    ctorDefault = ⟨[0], 0⟩ := by
  refine ⟨maxExponent_ctor c e, ?_, fun k hk => ?_, coeffPtr_ctor c e, fun he => ?_, rfl, rfl⟩
  · rw [getCoeff_ctor, if_pos rfl]
  · rw [getCoeff_ctor, if_neg hk]
  · simp only [ctor, if_pos he]; rfl

/-- Instance of C4: `Poly(5, -3)` is the one-element polynomial `[5]`, and reads 0 at
exponent 3. -/
theorem ctor_spec_witness :
    ctor 5 (-3) = ⟨[5], 0⟩ ∧ getCoeff (ctor 5 (-3)) 3 = 0 :=
  ⟨(ctor_spec 5 (-3)).2.2.2.2.1 (by decide), (ctor_spec 5 (-3)).2.2.1 3 (by decide)⟩

/-! ## Addition and subtraction (C5) -/

theorem isInt_readAt (buf : List Int) (h : ∀ c ∈ buf, IsInt c) (i : Int) :
    IsInt (readAt buf i) := by
  unfold readAt
  rw [List.getD_eq_getElem?_getD]
  by_cases hi : i.toNat < buf.length
  · rw [List.getElem?_eq_getElem hi]
    exact h _ (List.getElem_mem hi)
  · rw [List.getElem?_eq_none (by omega)]
    exact ⟨by decide, by decide⟩

theorem isInt_getCoeff (p : Poly) (hp : CoeffsInt p) (e : Int) : IsInt (getCoeff p e) := by
  unfold getCoeff
  split
  · exact ⟨by decide, by decide⟩
  · exact isInt_readAt _ hp _

theorem getCoeff_of_gt (p : Poly) (e : Int) (h : p.maxExponent < e) : getCoeff p e = 0 := by
  unfold getCoeff; rw [if_pos (Or.inr h)]

theorem getCoeff_of_neg (p : Poly) (e : Int) (h : e < 0) : getCoeff p e = 0 := by
  unfold getCoeff; rw [if_pos (Or.inl h)]

/-- The loop that stores `g power` at every `power` below `k`. -/
theorem setLoop_spec (g : Int → Int) (s : Poly) (hs : StorageInv s) (k : Nat) :
    StorageInv (forLoop (k : Int) (fun power t => setCoeff t (g power) power) s) ∧
    (forLoop (k : Int) (fun power t => setCoeff t (g power) power) s).maxExponent
      = max s.maxExponent ((k : Int) - 1) ∧
    ∀ j : Int, getCoeff (forLoop (k : Int) (fun power t => setCoeff t (g power) power) s) j
      = if 0 ≤ j ∧ j < k then g j else getCoeff s j := by
  induction k with
  | zero =>
    have h0 := hs.1
    refine ⟨?_, ?_, fun j => ?_⟩
    · simpa [forLoop] using hs
    · simp only [forLoop, Nat.cast_zero, Int.toNat_zero, List.range_zero, List.foldl_nil]
      omega
    · simp only [forLoop, Nat.cast_zero, Int.toNat_zero, List.range_zero, List.foldl_nil]
      rw [if_neg (by omega)]
  | succ k ih =>
    obtain ⟨ih1, ih2, ih3⟩ := ih
    rw [Nat.cast_succ, forLoop_succ]
    refine ⟨storageInv_setCoeff _ _ _ ih1, ?_, fun j => ?_⟩
    · rw [maxExponent_setCoeff _ _ _ (by omega), ih2]; omega
    · rw [getCoeff_setCoeff _ _ _ ih1 (by omega), ih3]
      by_cases hj : j = (k : Int)
      · rw [if_pos hj, if_pos (by omega), hj]
      · rw [if_neg hj]
        by_cases hj2 : 0 ≤ j ∧ j < (k : Int)
        · rw [if_pos hj2, if_pos (by omega)]
        · rw [if_neg hj2, if_neg (by omega)]

theorem forLoop_toNat {σ : Type} (n : Int) (body : Int → σ → σ) (s : σ) :
    forLoop n body s = forLoop ((n.toNat : Nat) : Int) body s := by
  unfold forLoop; rw [Int.toNat_ofNat]

theorem add_eq_setLoop (a b : Poly) (ha : StorageInv a) :
    add a b = forLoop (((b.maxExponent + 1).toNat : Nat) : Int)
      (fun power t => setCoeff t (wrapInt (getCoeff a power + getCoeff b power)) power) a := by
  unfold add; rw [copy_eq_self a ha, forLoop_toNat]

theorem sub_eq_setLoop (a b : Poly) (ha : StorageInv a) :
    sub a b = forLoop (((b.maxExponent + 1).toNat : Nat) : Int)
      (fun power t => setCoeff t (wrapInt (getCoeff a power - getCoeff b power)) power) a := by
  unfold sub; rw [copy_eq_self a ha, forLoop_toNat]

theorem storageInv_add (a b : Poly) (ha : StorageInv a) : StorageInv (add a b) := by
  rw [add_eq_setLoop a b ha]; exact (setLoop_spec _ a ha _).1

theorem storageInv_sub (a b : Poly) (ha : StorageInv a) : StorageInv (sub a b) := by
  rw [sub_eq_setLoop a b ha]; exact (setLoop_spec _ a ha _).1

theorem maxExponent_add (a b : Poly) (ha : StorageInv a) :
    (add a b).maxExponent = max a.maxExponent b.maxExponent := by
  have h0 := ha.1
  rw [add_eq_setLoop a b ha, (setLoop_spec _ a ha _).2.1]; omega

theorem maxExponent_sub (a b : Poly) (ha : StorageInv a) :
    (sub a b).maxExponent = max a.maxExponent b.maxExponent := by
  have h0 := ha.1
  rw [sub_eq_setLoop a b ha, (setLoop_spec _ a ha _).2.1]; omega

theorem getCoeff_add (a b : Poly) (ha : StorageInv a) (e : Int) :
    getCoeff (add a b) e =
      if 0 ≤ e ∧ e ≤ b.maxExponent then wrapInt (getCoeff a e + getCoeff b e)
      else getCoeff a e := by
  rw [add_eq_setLoop a b ha, (setLoop_spec _ a ha _).2.2]
  by_cases h : 0 ≤ e ∧ e ≤ b.maxExponent
  · rw [if_pos h, if_pos (by omega)]
  · rw [if_neg h, if_neg (by omega)]

theorem getCoeff_sub (a b : Poly) (ha : StorageInv a) (e : Int) :
    getCoeff (sub a b) e =
      if 0 ≤ e ∧ e ≤ b.maxExponent then wrapInt (getCoeff a e - getCoeff b e)
      else getCoeff a e := by
  rw [sub_eq_setLoop a b ha, (setLoop_spec _ a ha _).2.2]
  by_cases h : 0 ≤ e ∧ e ≤ b.maxExponent
  · rw [if_pos h, if_pos (by omega)]
  · rw [if_neg h, if_neg (by omega)]

/-- C5. For objects `a` (storage invariant, `int` coefficients) and `b`, at every integer
exponent `e` the sum reads `a.getCoeff(e) + b.getCoeff(e)` and the difference reads
`a.getCoeff(e) - b.getCoeff(e)`, the `+` and `-` being those of `int`; where the exact
result is an `int` it is the exact result. Both have `maxExponent` equal to the maximum of
the operands' values. The operands are values of the functions and are not returned. -/
theorem add_sub_spec (a b : Poly) (ha : StorageInv a) (hai : CoeffsInt a) (e : Int) :
    getCoeff (add a b) e = wrapInt (getCoeff a e + getCoeff b e) ∧
    getCoeff (sub a b) e = wrapInt (getCoeff a e - getCoeff b e) ∧
    (IsInt (getCoeff a e + getCoeff b e) →
      getCoeff (add a b) e = getCoeff a e + getCoeff b e) ∧
    (IsInt (getCoeff a e - getCoeff b e) →
      getCoeff (sub a b) e = getCoeff a e - getCoeff b e) ∧
    (add a b).maxExponent = max a.maxExponent b.maxExponent ∧
    (sub a b).maxExponent = max a.maxExponent b.maxExponent := by
  have hadd : getCoeff (add a b) e = wrapInt (getCoeff a e + getCoeff b e) := by
    rw [getCoeff_add a b ha]
    by_cases h : 0 ≤ e ∧ e ≤ b.maxExponent
    · rw [if_pos h]
    · rw [if_neg h]
      have hb : getCoeff b e = 0 := by
        by_cases h0 : e < 0
        · exact getCoeff_of_neg b e h0
        · exact getCoeff_of_gt b e (by omega)
      rw [hb, add_zero, wrapInt_of_isInt (isInt_getCoeff a hai e)]
  have hsub : getCoeff (sub a b) e = wrapInt (getCoeff a e - getCoeff b e) := by
    rw [getCoeff_sub a b ha]
    by_cases h : 0 ≤ e ∧ e ≤ b.maxExponent
    · rw [if_pos h]
    · rw [if_neg h]
      have hb : getCoeff b e = 0 := by
        by_cases h0 : e < 0
        · exact getCoeff_of_neg b e h0
        · exact getCoeff_of_gt b e (by omega)
      rw [hb, sub_zero, wrapInt_of_isInt (isInt_getCoeff a hai e)]
  refine ⟨hadd, hsub, fun h => ?_, fun h => ?_, maxExponent_add a b ha, maxExponent_sub a b ha⟩
  · rw [hadd, wrapInt_of_isInt h]
  · rw [hsub, wrapInt_of_isInt h]

/-- Instance of C5: `[1, 2, 3] + [10, 20]` and `[1, 2, 3] - [10, 20]` at exponent 2, which
only the left operand stores. -/
theorem add_sub_spec_witness :
    StorageInv ⟨[1, 2, 3], 2⟩ ∧ CoeffsInt ⟨[1, 2, 3], 2⟩ ∧
    getCoeff (add ⟨[1, 2, 3], 2⟩ ⟨[10, 20], 1⟩) 2
      = wrapInt (getCoeff ⟨[1, 2, 3], 2⟩ 2 + getCoeff ⟨[10, 20], 1⟩ 2) ∧
    (add ⟨[1, 2, 3], 2⟩ ⟨[10, 20], 1⟩).maxExponent = max 2 1 :=
  ⟨by decide, by decide,
   (add_sub_spec ⟨[1, 2, 3], 2⟩ ⟨[10, 20], 1⟩ (by decide) (by decide) 2).1,
   (add_sub_spec ⟨[1, 2, 3], 2⟩ ⟨[10, 20], 1⟩ (by decide) (by decide) 2).2.2.2.2.1⟩

/-! ## Multiplication (C6) -/

theorem wrapInt_zero : wrapInt 0 = 0 := by decide

theorem storageInv_ctorDefault : StorageInv ctorDefault := storageInv_ctor 0 0

theorem getCoeff_ctorDefault (k : Int) : getCoeff ctorDefault k = 0 := by
  unfold ctorDefault; rw [getCoeff_ctor]; split <;> rfl

/-- The terms of one left exponent `i`: at most one right exponent meets `i + j = k`. -/
theorem sum_convTerm_row (a b : Poly) (k : Int) (i m : Nat) :
    ((List.range m).map (fun j => convTerm a b k i j)).sum
      = if (i : Int) ≤ k ∧ k < (i : Int) + (m : Int)
        then getCoeff a i * getCoeff b (k - i) else 0 := by
  induction m with
  | zero => rw [if_neg (by omega)]; rfl
  | succ m ih =>
    rw [List.range_succ, List.map_append, List.sum_append, ih, List.map_singleton,
      List.sum_singleton]
    unfold convTerm
    by_cases h1 : (i : Int) + (m : Int) = k
    · have h2 : k - (i : Int) = (m : Int) := by omega
      rw [if_pos h1, if_neg (by omega), if_pos (by omega), h2, zero_add]
    · rw [if_neg h1, add_zero]
      by_cases h3 : (i : Int) ≤ k ∧ k < (i : Int) + (m : Int)
      · rw [if_pos h3, if_pos (by omega)]
      · rw [if_neg h3, if_neg (by omega)]

/-- The inner loop of the multiplication for the left exponent `i` with coefficient `c`. -/
theorem mulInner_spec (c : Int) (b : Poly) (i : Nat) (s : Poly) (hs : StorageInv s) (m : Nat) :
    StorageInv (forLoop (m : Int) (fun rightPow product =>
      setCoeff product (wrapInt (wrapInt (c * getCoeff b rightPow)
        + getCoeff product ((i : Int) + rightPow))) ((i : Int) + rightPow)) s) ∧
    (forLoop (m : Int) (fun rightPow product =>
      setCoeff product (wrapInt (wrapInt (c * getCoeff b rightPow)
        + getCoeff product ((i : Int) + rightPow))) ((i : Int) + rightPow)) s).maxExponent
      = (if m = 0 then s.maxExponent else max s.maxExponent ((i : Int) + (m : Int) - 1)) ∧
    ∀ k : Int, getCoeff (forLoop (m : Int) (fun rightPow product =>
      setCoeff product (wrapInt (wrapInt (c * getCoeff b rightPow)
        + getCoeff product ((i : Int) + rightPow))) ((i : Int) + rightPow)) s) k
      = if (i : Int) ≤ k ∧ k < (i : Int) + (m : Int)
        then wrapInt (wrapInt (c * getCoeff b (k - i)) + getCoeff s k)
        else getCoeff s k := by
  induction m with
  | zero =>
    rw [Nat.cast_zero, forLoop_of_nonpos 0 (le_refl 0)]
    refine ⟨hs, by rw [if_pos rfl], fun k => ?_⟩
    rw [if_neg (by omega)]
  | succ m ih =>
    obtain ⟨ih1, ih2, ih3⟩ := ih
    rw [Nat.cast_succ, forLoop_succ]
    refine ⟨storageInv_setCoeff _ _ _ ih1, ?_, fun k => ?_⟩
    · rw [maxExponent_setCoeff _ _ _ (by omega), ih2, if_neg (Nat.succ_ne_zero m)]
      have h0 := hs.1
      by_cases hm : m = 0
      · rw [if_pos hm]; omega
      · rw [if_neg hm]; omega
    · rw [getCoeff_setCoeff _ _ _ ih1 (by omega), ih3, ih3]
      by_cases hk : k = (i : Int) + (m : Int)
      · have h2 : k - (i : Int) = (m : Int) := by omega
        rw [if_pos hk, if_neg (by omega), if_pos (by omega), h2, hk]
      · rw [if_neg hk]
        by_cases h3 : (i : Int) ≤ k ∧ k < (i : Int) + (m : Int)
        · rw [if_pos h3, if_pos (by omega)]
        · rw [if_neg h3, if_neg (by omega)]

/-- The outer loop of the multiplication after `n` left exponents, from `Poly()`. -/
theorem mulOuter_spec (a b : Poly) (n : Nat) :
    StorageInv (forLoop (n : Int) (fun leftPow product =>
      forLoop (b.maxExponent + 1) (fun rightPow product =>
        setCoeff product (wrapInt (wrapInt (getCoeff a leftPow * getCoeff b rightPow)
          + getCoeff product (leftPow + rightPow))) (leftPow + rightPow)) product)
      ctorDefault) ∧
    (forLoop (n : Int) (fun leftPow product =>
      forLoop (b.maxExponent + 1) (fun rightPow product =>
        setCoeff product (wrapInt (wrapInt (getCoeff a leftPow * getCoeff b rightPow)
          + getCoeff product (leftPow + rightPow))) (leftPow + rightPow)) product)
      ctorDefault).maxExponent
      = (if n = 0 ∨ (b.maxExponent + 1).toNat = 0 then 0
         else (n : Int) + ((b.maxExponent + 1).toNat : Int) - 2) ∧
    ∀ k : Int, getCoeff (forLoop (n : Int) (fun leftPow product =>
      forLoop (b.maxExponent + 1) (fun rightPow product =>
        setCoeff product (wrapInt (wrapInt (getCoeff a leftPow * getCoeff b rightPow)
          + getCoeff product (leftPow + rightPow))) (leftPow + rightPow)) product)
      ctorDefault) k
      = wrapInt (((List.range n).map (fun i =>
          ((List.range (b.maxExponent + 1).toNat).map (fun j => convTerm a b k i j)).sum)).sum) := by
  induction n with
  | zero =>
    rw [Nat.cast_zero, forLoop_of_nonpos 0 (le_refl 0)]
    refine ⟨storageInv_ctorDefault, by rw [if_pos (Or.inl rfl)]; rfl, fun k => ?_⟩
    rw [getCoeff_ctorDefault]; rfl
  | succ n ih =>
    obtain ⟨ih1, ih2, ih3⟩ := ih
    rw [Nat.cast_succ, forLoop_succ, forLoop_toNat (b.maxExponent + 1)]
    obtain ⟨h1, h2, h3⟩ := mulInner_spec (getCoeff a n) b n _ ih1 (b.maxExponent + 1).toNat
    refine ⟨h1, ?_, fun k => ?_⟩
    · rw [h2, ih2]
      by_cases hm : (b.maxExponent + 1).toNat = 0
      · rw [if_pos hm, if_pos (Or.inr hm), if_pos (Or.inr hm)]
      · rw [if_neg hm, if_neg (show ¬ (n + 1 = 0 ∨ (b.maxExponent + 1).toNat = 0) by omega)]
        by_cases hn : n = 0
        · rw [if_pos (Or.inl hn)]; omega
        · rw [if_neg (show ¬ (n = 0 ∨ (b.maxExponent + 1).toNat = 0) by omega)]; omega
    · rw [h3, ih3, List.range_succ, List.map_append, List.sum_append, List.map_singleton,
        List.sum_singleton, sum_convTerm_row]
      by_cases hk : (n : Int) ≤ k ∧ k < (n : Int) + ((b.maxExponent + 1).toNat : Int)
      · rw [if_pos hk, if_pos hk, wrapInt_add_wrapInt, add_comm]
      · rw [if_neg hk, if_neg hk, add_zero]

theorem storageInv_mul (a b : Poly) : StorageInv (mul a b) := by
  unfold mul mulLoops; rw [forLoop_toNat]; exact (mulOuter_spec a b _).1

theorem maxExponent_mul (a b : Poly) (ha : 0 ≤ a.maxExponent) (hb : 0 ≤ b.maxExponent) :
    (mul a b).maxExponent = a.maxExponent + b.maxExponent := by
  unfold mul mulLoops
  rw [forLoop_toNat, (mulOuter_spec a b _).2.1,
    if_neg (show ¬ ((a.maxExponent + 1).toNat = 0 ∨ (b.maxExponent + 1).toNat = 0) by omega)]
  omega

theorem getCoeff_mul (a b : Poly) (k : Int) :
    getCoeff (mul a b) k = wrapInt (convolution a b k) := by
  unfold mul mulLoops convolution
  rw [forLoop_toNat, (mulOuter_spec a b _).2.2]

theorem convolution_of_outside (a b : Poly) (k : Int)
    (hk : k < 0 ∨ k > a.maxExponent + b.maxExponent) : convolution a b k = 0 := by
  unfold convolution
  apply List.sum_eq_zero
  intro x hx
  rw [List.mem_map] at hx
  obtain ⟨i, hi, rfl⟩ := hx
  rw [List.mem_range] at hi
  rw [sum_convTerm_row]
  by_cases h : (i : Int) ≤ k ∧ k < (i : Int) + ((b.maxExponent + 1).toNat : Int)
  · omega
  · rw [if_neg h]

/-- C6. At every integer `k` the product reads the convolution sum of
`a.getCoeff(i) * b.getCoeff(j)` over `0 <= i <= a.maxExponent`, `0 <= j <= b.maxExponent`,
`i + j = k`, taken in `int` arithmetic (the exact sum where that is an `int`), which is 0
when no pair exists; and `maxExponent` of the product is `a.maxExponent + b.maxExponent`
whatever the coefficients are. -/
theorem mul_spec (a b : Poly) (ha : StorageInv a) (hb : StorageInv b) (k : Int) :
    getCoeff (mul a b) k = wrapInt (convolution a b k) ∧
    (IsInt (convolution a b k) → getCoeff (mul a b) k = convolution a b k) ∧
    ((k < 0 ∨ k > a.maxExponent + b.maxExponent) → getCoeff (mul a b) k = 0) ∧
    (mul a b).maxExponent = a.maxExponent + b.maxExponent := by
  refine ⟨getCoeff_mul a b k, fun h => ?_, fun h => ?_, maxExponent_mul a b ha.1 hb.1⟩
  · rw [getCoeff_mul, wrapInt_of_isInt h]
  · rw [getCoeff_mul, convolution_of_outside a b k h]; rfl

/-- Instance of C6: `[1, 2] * [3, 0]` has `maxExponent` 2 although its leading product is
zero, and reads `1*0 + 2*3` at exponent 1. -/
theorem mul_spec_witness :
    StorageInv ⟨[1, 2], 1⟩ ∧ StorageInv ⟨[3, 0], 1⟩ ∧
    getCoeff (mul ⟨[1, 2], 1⟩ ⟨[3, 0], 1⟩) 1 = wrapInt (convolution ⟨[1, 2], 1⟩ ⟨[3, 0], 1⟩ 1) ∧
    convolution ⟨[1, 2], 1⟩ ⟨[3, 0], 1⟩ 1 = 6 ∧
    (mul ⟨[1, 2], 1⟩ ⟨[3, 0], 1⟩).maxExponent = 1 + 1 ∧
    mul ⟨[1, 2], 1⟩ ⟨[3, 0], 1⟩ = ⟨[3, 6, 0], 2⟩ :=
  ⟨by decide, by decide,
   (mul_spec ⟨[1, 2], 1⟩ ⟨[3, 0], 1⟩ (by decide) (by decide) 1).1,
   by decide,
   (mul_spec ⟨[1, 2], 1⟩ ⟨[3, 0], 1⟩ (by decide) (by decide) 1).2.2.2,
   by decide⟩

/-! ## Equality (C7) -/

theorem eqLoop_iff (p q : Poly) (l : List Nat) :
    eqLoop p q l = true ↔ ∀ i ∈ l, getCoeff p (i : Int) = getCoeff q (i : Int) := by
  induction l with
  | nil => simp [eqLoop]
  | cons x xs ih =>
    unfold eqLoop
    by_cases h : getCoeff p (x : Int) = getCoeff q (x : Int)
    · rw [if_neg (not_not.mpr h), ih]
      constructor
      · intro hall i hi
        rcases List.mem_cons.mp hi with rfl | hi
        · exact h
        · exact hall i hi
      · intro hall i hi
        exact hall i (List.mem_cons_of_mem _ hi)
    · rw [if_pos h]
      constructor
      · intro hf; exact absurd hf (by decide)
      · intro hall; exact absurd (hall x (List.mem_cons_self _ _)) h

theorem eq_iff (a b : Poly) :
    eq a b = true ↔
      a.maxExponent = b.maxExponent ∧
      ∀ i : Int, 0 ≤ i → i ≤ a.maxExponent → getCoeff a i = getCoeff b i := by
  unfold eq
  by_cases hm : a.maxExponent = b.maxExponent
  · rw [if_pos hm, eqLoop_iff]
    constructor
    · intro h
      refine ⟨hm, fun i h0 h1 => ?_⟩
      have := h i.toNat (List.mem_range.mpr (by omega))
      rwa [Int.toNat_of_nonneg h0] at this
    · intro h i hi
      rw [List.mem_range] at hi
      exact h.2 i (by omega) (by omega)
  · rw [if_neg hm]
    constructor
    · intro hf; exact absurd hf (by decide)
    · intro h; exact absurd h.1 hm

/-- C7. `operator==` is true exactly when the two `maxExponent` are equal and
`getCoeff(i)` agrees for every `i` from 0 to `maxExponent`. It is structural on the
stored degree: objects that agree at every exponent but differ in `maxExponent` compare
unequal, as `Poly(0,5)` and `Poly()` do. -/
theorem eq_spec (a b : Poly) :
    (eq a b = true ↔
      a.maxExponent = b.maxExponent ∧
      ∀ i : Int, 0 ≤ i → i ≤ a.maxExponent → getCoeff a i = getCoeff b i) ∧
    ((∀ e : Int, getCoeff a e = getCoeff b e) → a.maxExponent ≠ b.maxExponent →
      eq a b = false) ∧
    (∀ e : Int, getCoeff (ctor 0 5) e = getCoeff ctorDefault e) ∧
    eq (ctor 0 5) ctorDefault = false := by
  refine ⟨eq_iff a b, fun _ hne => ?_, fun e => ?_, by decide⟩
  · unfold eq; rw [if_neg hne]
  · rw [getCoeff_ctorDefault, getCoeff_ctor]; split <;> rfl

/-- Instance of C7: `[1, 2]` equals `[1, 2]`, and `[1, 2, 0]` with stored degree 2 does
not equal `[1, 2]` although both read the same at every exponent up to 2. -/
theorem eq_spec_witness :
    eq ⟨[1, 2], 1⟩ ⟨[1, 2], 1⟩ = true ∧ eq ⟨[1, 2, 0], 2⟩ ⟨[1, 2], 1⟩ = false :=
  ⟨(eq_spec ⟨[1, 2], 1⟩ ⟨[1, 2], 1⟩).1.mpr ⟨rfl, fun _ _ _ => rfl⟩,
   Bool.eq_false_iff.mpr (fun h => absurd ((eq_spec ⟨[1, 2, 0], 2⟩ ⟨[1, 2], 1⟩).1.mp h).1
     (by decide))⟩

/-! ## Compound operators and assignment (C8, C9) -/

/-- Two objects that satisfy the storage invariant, have the same `maxExponent` and read
the same at every exponent are the same object. -/
theorem eq_of_getCoeff (p q : Poly) (hp : StorageInv p) (hq : StorageInv q)
    (hm : p.maxExponent = q.maxExponent) (h : ∀ k : Int, getCoeff p k = getCoeff q k) :
    p = q := by
  obtain ⟨bp, mp⟩ := p
  obtain ⟨bq, mq⟩ := q
  simp only at hm
  subst hm
  obtain ⟨hp0, hpl⟩ := hp
  obtain ⟨_, hql⟩ := hq
  simp only at hp0 hpl hql
  have hb : bp = bq := by
    apply list_eq_of_readAt _ _ (by omega)
    intro j hj
    have := h (j : Int)
    unfold getCoeff at this
    simp only at this
    rwa [if_neg (by omega), if_neg (by omega)] at this
  rw [hb]

/-- The loop of a compound operator, which reads the object it updates, goes through the
same objects as the loop of the binary operator, which reads the left operand. -/
theorem compoundLoop_eq (f : Int → Int → Int) (a : Poly) (ha : StorageInv a) (k : Nat) :
    forLoop (k : Int) (fun power self => setCoeff self (f (getCoeff self power) power) power) a
      = forLoop (k : Int) (fun power t => setCoeff t (f (getCoeff a power) power) power) a := by
  induction k with
  | zero => rw [Nat.cast_zero, forLoop_of_nonpos 0 (le_refl 0), forLoop_of_nonpos 0 (le_refl 0)]
  | succ k ih =>
    rw [Nat.cast_succ, forLoop_succ, forLoop_succ, ih]
    have h := (setLoop_spec (fun power => f (getCoeff a power) power) a ha k).2.2 (k : Int)
    rw [if_neg (by omega)] at h
    rw [h]

theorem addAssign_eq_add (a b : Poly) (ha : StorageInv a) : addAssign a b = add a b := by
  rw [add_eq_setLoop a b ha]
  unfold addAssign
  rw [forLoop_toNat]
  exact compoundLoop_eq (fun x power => wrapInt (x + getCoeff b power)) a ha _

theorem subAssign_eq_sub (a b : Poly) (ha : StorageInv a) : subAssign a b = sub a b := by
  rw [sub_eq_setLoop a b ha]
  unfold subAssign
  rw [forLoop_toNat]
  exact compoundLoop_eq (fun x power => wrapInt (x - getCoeff b power)) a ha _

/-- The copying loop of `operator=` started at `power` ends by its own condition once the
fuel exceeds the number of rounds left, with the positions from `power` on copied. -/
theorem assignLoop_spec (right : Poly) (fuel : Nat) :
    ∀ (power : Int) (s : Poly), StorageInv s → 0 ≤ power → power ≤ s.maxExponent + 1 →
      (s.maxExponent + 1 - power).toNat < fuel →
      ∃ r, assignLoop right fuel power s = some r ∧ StorageInv r ∧
        r.maxExponent = s.maxExponent ∧
        ∀ k : Int, getCoeff r k
          = if power ≤ k ∧ k ≤ s.maxExponent then getCoeff right k else getCoeff s k := by
  induction fuel with
  | zero => intro power s _ _ _ hf; omega
  | succ fuel ih =>
    intro power s hs h0 hle hf
    unfold assignLoop
    by_cases hc : power < s.maxExponent + 1
    · rw [if_pos hc]
      have hmax : (setCoeff s (getCoeff right power) power).maxExponent = s.maxExponent := by
        rw [maxExponent_setCoeff _ _ _ h0]; omega
      obtain ⟨r, hr, hinv, hrm, hrc⟩ := ih (power + 1) _
        (storageInv_setCoeff s (getCoeff right power) power hs) (by omega)
        (by rw [hmax]; omega) (by rw [hmax]; omega)
      refine ⟨r, hr, hinv, by rw [hrm, hmax], fun k => ?_⟩
      rw [hrc, hmax, getCoeff_setCoeff _ _ _ hs h0]
      by_cases hk : k = power
      · rw [if_neg (by omega), if_pos hk, if_pos (by omega), hk]
      · rw [if_neg hk]
        by_cases hk2 : power + 1 ≤ k ∧ k ≤ s.maxExponent
        · rw [if_pos hk2, if_pos (by omega)]
        · rw [if_neg hk2, if_neg (by omega)]
    · rw [if_neg hc]
      refine ⟨s, rfl, hs, rfl, fun k => ?_⟩
      rw [if_neg (by omega)]

theorem assign_of_distinct (a b : Poly) (hb : StorageInv b) : assign a b false = some b := by
  obtain ⟨h0, hlen⟩ := hb
  unfold assign
  simp only [Bool.not_false, if_true]
  have hfresh : StorageInv ⟨newArray (b.maxExponent + 1), b.maxExponent⟩ := by
    refine ⟨h0, ?_⟩
    simp only [length_newArray]; omega
  obtain ⟨r, hr, hinv, hrm, hrc⟩ := assignLoop_spec b ((b.maxExponent + 1).toNat + 1) 0
    ⟨newArray (b.maxExponent + 1), b.maxExponent⟩ hfresh (le_refl 0)
    (by simp only; omega) (by simp only; omega)
  rw [hr]
  congr 1
  apply eq_of_getCoeff r b hinv ⟨h0, hlen⟩ hrm
  intro k
  rw [hrc]
  simp only
  by_cases hk : 0 ≤ k ∧ k ≤ b.maxExponent
  · rw [if_pos hk]
  · rw [if_neg hk]
    unfold getCoeff
    simp only
    rw [if_pos (by omega), if_pos (by omega)]

theorem eq_self (p : Poly) : eq p p = true :=
  (eq_iff p p).mpr ⟨rfl, fun _ _ _ => rfl⟩

theorem mulAssign_eq_mul (a b : Poly) : mulAssign a b = some (mul a b) := by
  unfold mulAssign
  exact assign_of_distinct a _ (storageInv_mul a b)

/-- The loop of `a += a` and `a -= a` started at `power` ends by its own condition once
the fuel exceeds the number of rounds left; every position from `power` on is combined
with itself, each read before it is written. -/
theorem compoundSelfLoop_spec (op : Int → Int → Int) (fuel : Nat) :
    ∀ (power : Int) (s : Poly), StorageInv s → 0 ≤ power → power ≤ s.maxExponent + 1 →
      (s.maxExponent + 1 - power).toNat < fuel →
      ∃ r, compoundSelfLoop op fuel power s = some r ∧ StorageInv r ∧
        r.maxExponent = s.maxExponent ∧
        ∀ k : Int, getCoeff r k
          = if power ≤ k ∧ k ≤ s.maxExponent
            then wrapInt (op (getCoeff s k) (getCoeff s k)) else getCoeff s k := by
  induction fuel with
  | zero => intro power s _ _ _ hf; omega
  | succ fuel ih =>
    intro power s hs h0 hle hf
    unfold compoundSelfLoop
    by_cases hc : power < s.maxExponent + 1
    · rw [if_pos hc]
      have hmax : (setCoeff s (wrapInt (op (getCoeff s power) (getCoeff s power)))
          power).maxExponent = s.maxExponent := by
        rw [maxExponent_setCoeff _ _ _ h0]; omega
      obtain ⟨r, hr, hinv, hrm, hrc⟩ := ih (power + 1) _
        (storageInv_setCoeff s (wrapInt (op (getCoeff s power) (getCoeff s power))) power hs)
        (by omega) (by rw [hmax]; omega) (by rw [hmax]; omega)
      refine ⟨r, hr, hinv, by rw [hrm, hmax], fun k => ?_⟩
      rw [hrc, hmax, getCoeff_setCoeff _ _ _ hs h0]
      by_cases hk : k = power
      · rw [if_neg (by omega), if_pos hk, if_pos (by omega), hk]
      · rw [if_neg hk]
        by_cases hk2 : power + 1 ≤ k ∧ k ≤ s.maxExponent
        · rw [if_pos hk2, if_pos (by omega)]
        · rw [if_neg hk2, if_neg (by omega)]
    · rw [if_neg hc]
      refine ⟨s, rfl, hs, rfl, fun k => ?_⟩
      rw [if_neg (by omega)]

theorem addAssignSelf_eq_add (a : Poly) (ha : StorageInv a) :
    addAssignSelf a = some (add a a) := by
  obtain ⟨r, hr, hinv, hrm, hrc⟩ := compoundSelfLoop_spec (fun x y => x + y)
    ((a.maxExponent + 1).toNat + 1) 0 a ha (le_refl 0) (by have := ha.1; omega) (by omega)
  unfold addAssignSelf
  rw [hr]
  congr 1
  apply eq_of_getCoeff r (add a a) hinv (storageInv_add a a ha)
  · rw [hrm, maxExponent_add a a ha, max_self]
  · intro k
    rw [hrc, getCoeff_add a a ha]

theorem subAssignSelf_eq_sub (a : Poly) (ha : StorageInv a) :
    subAssignSelf a = some (sub a a) := by
  obtain ⟨r, hr, hinv, hrm, hrc⟩ := compoundSelfLoop_spec (fun x y => x - y)
    ((a.maxExponent + 1).toNat + 1) 0 a ha (le_refl 0) (by have := ha.1; omega) (by omega)
  unfold subAssignSelf
  rw [hr]
  congr 1
  apply eq_of_getCoeff r (sub a a) hinv (storageInv_sub a a ha)
  · rw [hrm, maxExponent_sub a a ha, max_self]
  · intro k
    rw [hrc, getCoeff_sub a a ha]

/-- C8. What a compound operator leaves in `a` is the object that the binary operator
returns for the value `a` had before the call: `a += b` leaves `a + b`, `a -= b` leaves
`a - b` and `a *= b` leaves `a * b`, with the same `maxExponent` and the same buffer.
`b` is passed by reference to const and the functions return no new `b`; when `b` is `a`
itself, `a += a` leaves `a + a` and `a -= a` leaves `a - a` all the same. -/
theorem compound_spec (a b : Poly) (ha : StorageInv a) :
    addAssign a b = add a b ∧
    subAssign a b = sub a b ∧
    mulAssign a b = some (mul a b) ∧
    addAssignSelf a = some (add a a) ∧
    subAssignSelf a = some (sub a a) :=
  ⟨addAssign_eq_add a b ha, subAssign_eq_sub a b ha, mulAssign_eq_mul a b,
   addAssignSelf_eq_add a ha, subAssignSelf_eq_sub a ha⟩

/-- Instance of C8: `[1, 2] += [5, 0, 7]` grows the left operand to `[6, 2, 7]`, which is
`[1, 2] + [5, 0, 7]`. -/
theorem compound_spec_witness :
    StorageInv ⟨[1, 2], 1⟩ ∧
    addAssign ⟨[1, 2], 1⟩ ⟨[5, 0, 7], 2⟩ = add ⟨[1, 2], 1⟩ ⟨[5, 0, 7], 2⟩ ∧
    addAssign ⟨[1, 2], 1⟩ ⟨[5, 0, 7], 2⟩ = ⟨[6, 2, 7], 2⟩ ∧
    mulAssign ⟨[1, 2], 1⟩ ⟨[5, 0, 7], 2⟩ = some (mul ⟨[1, 2], 1⟩ ⟨[5, 0, 7], 2⟩) ∧
    addAssignSelf ⟨[1, 2], 1⟩ = some ⟨[2, 4], 1⟩ :=
  ⟨by decide,
   (compound_spec ⟨[1, 2], 1⟩ ⟨[5, 0, 7], 2⟩ (by decide)).1,
   by decide,
   (compound_spec ⟨[1, 2], 1⟩ ⟨[5, 0, 7], 2⟩ (by decide)).2.2.1,
   by decide⟩

/-- C9. The copy-assignment `a = b` of another object `b` ends, whatever `a` held and
whatever the fuel beyond `maxExponent + 1` rounds, with `a` holding `b`'s `maxExponent`
and `b`'s coefficient at every index, so that `a == b` is true; the self-assignment
`p = p` leaves `p` as it was. -/
theorem assign_spec (a b : Poly) (hb : StorageInv b) :
    (∃ r, assign a b false = some r ∧
      r.maxExponent = b.maxExponent ∧
      r.coeffPtr = b.coeffPtr ∧
      (∀ i : Int, getCoeff r i = getCoeff b i) ∧
      eq r b = true) ∧
    (∀ fuel : Nat, (b.maxExponent + 1).toNat < fuel →
      assignLoop b fuel 0 ⟨newArray (b.maxExponent + 1), b.maxExponent⟩ = some b) ∧
    assign a a true = some a := by
  refine ⟨⟨b, assign_of_distinct a b hb, rfl, rfl, fun _ => rfl, eq_self b⟩,
    fun fuel hf => ?_, rfl⟩
  obtain ⟨h0, hlen⟩ := hb
  have hfresh : StorageInv ⟨newArray (b.maxExponent + 1), b.maxExponent⟩ := by
    refine ⟨h0, ?_⟩
    simp only [length_newArray]; omega
  obtain ⟨r, hr, hinv, hrm, hrc⟩ := assignLoop_spec b fuel 0
    ⟨newArray (b.maxExponent + 1), b.maxExponent⟩ hfresh (le_refl 0)
    (by simp only; omega) (by simp only; omega)
  rw [hr]
  congr 1
  apply eq_of_getCoeff r b hinv ⟨h0, hlen⟩ hrm
  intro k
  rw [hrc]
  simp only
  by_cases hk : 0 ≤ k ∧ k ≤ b.maxExponent
  · rw [if_pos hk]
  · rw [if_neg hk]
    unfold getCoeff
    simp only
    rw [if_pos (by omega), if_pos (by omega)]

/-- Instance of C9: assigning `[4, 5]` to an object that held the larger `[1, 2, 3, 9]`. -/
theorem assign_spec_witness :
    StorageInv ⟨[4, 5], 1⟩ ∧
    assign ⟨[1, 2, 3, 9], 3⟩ ⟨[4, 5], 1⟩ false = some ⟨[4, 5], 1⟩ ∧
    (∃ r, assign ⟨[1, 2, 3, 9], 3⟩ ⟨[4, 5], 1⟩ false = some r ∧
      r.maxExponent = 1 ∧ r.coeffPtr = [4, 5] ∧
      (∀ i : Int, getCoeff r i = getCoeff ⟨[4, 5], 1⟩ i) ∧ eq r ⟨[4, 5], 1⟩ = true) :=
  ⟨by decide, by decide, (assign_spec ⟨[1, 2, 3, 9], 3⟩ ⟨[4, 5], 1⟩ (by decide)).1⟩

/-! ## Textual output (C10) -/

theorem join_nil : String.join [] = "" := rfl

theorem join_cons (x : String) (xs : List String) :
    String.join (x :: xs) = x ++ String.join xs := by
  apply String.ext
  simp [String.data_join]

/-- One round of the output loop at a nonzero coefficient appends the token of the
specification. -/
theorem outputStep_of_ne (p : Poly) (power : Int) (s : OutState)
    (h : getCoeff p power ≠ 0) :
    outputStep p power s
      = { output := s.output ++ specToken (getCoeff p power) power, printed := true } := by
  unfold outputStep specToken
  simp only [if_pos h]
  generalize getCoeff p power = c
  by_cases hc : c > 0
  · simp only [if_pos hc]
    by_cases h0 : power = 0
    · simp only [h0, ne_eq, not_true_eq_false, if_false, if_true, String.append_assoc,
        String.append_empty]
    · by_cases h1 : power = 1
      · simp only [h1, ne_eq, not_true_eq_false, if_false, if_true, String.append_assoc,
          one_ne_zero, not_false_eq_true]
      · simp only [h0, h1, ne_eq, not_false_eq_true, if_false, if_true, String.append_assoc]
        rfl
  · simp only [if_neg hc]
    by_cases h0 : power = 0
    · simp only [h0, ne_eq, not_true_eq_false, if_false, if_true, String.append_assoc,
        String.append_empty, String.empty_append]
    · by_cases h1 : power = 1
      · simp only [h1, ne_eq, not_true_eq_false, if_false, if_true, String.append_assoc,
          one_ne_zero, not_false_eq_true, String.empty_append]
      · simp only [h0, h1, ne_eq, not_false_eq_true, if_false, if_true, String.append_assoc,
          String.empty_append]
        rfl

theorem outputStep_of_eq (p : Poly) (power : Int) (s : OutState)
    (h : getCoeff p power = 0) : outputStep p power s = s := by
  unfold outputStep
  simp only [if_neg (not_not.mpr h)]

/-- The output loop over the exponents of `l` appends the tokens of the nonzero
coefficients in the order of `l` and raises `printed` when there is one. -/
theorem outputFold_spec (p : Poly) (l : List Nat) :
    ∀ s : OutState,
      (l.foldl (fun acc (i : Nat) => outputStep p (i : Int) acc) s).output
        = s.output ++ String.join
            ((l.filter (fun (e : Nat) => getCoeff p (e : Int) ≠ 0)).map
              (fun (e : Nat) => specToken (getCoeff p (e : Int)) (e : Int))) ∧
      (l.foldl (fun acc (i : Nat) => outputStep p (i : Int) acc) s).printed
        = (s.printed || l.any (fun (e : Nat) => getCoeff p (e : Int) ≠ 0)) := by
  induction l with
  | nil => intro s; simp [join_nil]
  | cons x xs ih =>
    intro s
    rw [List.foldl_cons]
    by_cases h : getCoeff p (x : Int) = 0
    · rw [outputStep_of_eq p x s h]
      obtain ⟨h1, h2⟩ := ih s
      refine ⟨?_, ?_⟩
      · rw [h1, List.filter_cons_of_neg (by simpa using h)]
      · rw [h2, List.any_cons]; simp [h]
    · rw [outputStep_of_ne p x s h]
      obtain ⟨h1, h2⟩ := ih ⟨s.output ++ specToken (getCoeff p (x : Int)) (x : Int), true⟩
      refine ⟨?_, ?_⟩
      · rw [h1, List.filter_cons_of_pos (by simpa using h), List.map_cons, join_cons,
          String.append_assoc]
      · rw [h2, List.any_cons]; simp [h]

theorem output_eq (out : String) (p : Poly) :
    output out p =
      if (List.range (p.maxExponent + 1).toNat).reverse.any
          (fun (e : Nat) => getCoeff p (e : Int) ≠ 0)
      then out ++ specFormat p else out ++ specFormat p ++ " 0" := by
  obtain ⟨h1, h2⟩ := outputFold_spec p (List.range (p.maxExponent + 1).toNat).reverse
    ⟨out, false⟩
  unfold output forLoopDown
  dsimp only
  rw [h2, h1, Bool.false_or]
  unfold specFormat
  by_cases hany : (List.range (p.maxExponent + 1).toNat).reverse.any
      (fun (e : Nat) => getCoeff p (e : Int) ≠ 0) = true
  · rw [hany]; rfl
  · rw [Bool.not_eq_true] at hany
    rw [hany]; rfl

theorem digitChar_ne_newline : ∀ n : Nat, n < 10 → Nat.digitChar n ≠ '\n' := by
  decide

theorem newline_not_mem_toDigitsCore (fuel : Nat) :
    ∀ (n : Nat) (ds : List Char), '\n' ∉ ds → '\n' ∉ Nat.toDigitsCore 10 fuel n ds := by
  induction fuel with
  | zero => intro n ds h; exact h
  | succ fuel ih =>
    intro n ds h
    unfold Nat.toDigitsCore
    have hd : '\n' ∉ Nat.digitChar (n % 10) :: ds := by
      intro hm
      rcases List.mem_cons.mp hm with h1 | h1
      · exact digitChar_ne_newline _ (Nat.mod_lt n (by decide)) h1.symm
      · exact h h1
    dsimp only
    split
    · exact hd
    · exact ih _ _ hd

theorem newline_not_mem_toString_nat (n : Nat) : '\n' ∉ (toString n).data := by
  show '\n' ∉ (Nat.toDigits 10 n)
  exact newline_not_mem_toDigitsCore _ _ _ (List.not_mem_nil _)

theorem newline_not_mem_toString_int (c : Int) : '\n' ∉ (toString c).data := by
  cases c with
  | ofNat m => exact newline_not_mem_toString_nat m
  | negSucc m =>
    show '\n' ∉ ("-" ++ toString (Nat.succ m)).data
    rw [String.data_append, List.mem_append]
    rintro (h | h)
    · revert h; decide
    · exact newline_not_mem_toString_nat _ h

theorem newline_not_mem_specToken (c e : Int) : '\n' ∉ (specToken c e).data := by
  unfold specToken
  have hc := newline_not_mem_toString_int c
  have he := newline_not_mem_toString_int e
  simp only [String.data_append, List.mem_append, not_or]
  refine ⟨⟨⟨by decide, ?_⟩, hc⟩, ?_⟩
  · split <;> decide
  · split
    · decide
    · split
      · decide
      · simp only [String.data_append, List.mem_append, not_or]
        exact ⟨by decide, he⟩

theorem newline_not_mem_specFormat (p : Poly) : '\n' ∉ (specFormat p).data := by
  unfold specFormat
  rw [String.data_join, List.mem_flatten]
  rintro ⟨l, hl, hmem⟩
  rw [List.mem_map] at hl
  obtain ⟨s, hs, rfl⟩ := hl
  rw [List.mem_map] at hs
  obtain ⟨e, _, rfl⟩ := hs
  exact newline_not_mem_specToken _ _ hmem

/-- C10. For an object with a nonzero coefficient, the text written by `operator<<` is
the concatenation, over the exponents from `maxExponent` down to 0 whose coefficient `c`
is not zero, of the token: a space, `+` if `c > 0`, the decimal digits of `c` (with `-`
if negative), then nothing for exponent 0, `x` for exponent 1 and `x^` with the decimal
exponent otherwise. Nothing else is written and the text holds no newline character; on
a stream that holds `out` the text is appended to `out`. The polynomial read from the
pairs (3,2), (-1,1), (5,0) prints as ` +3x^2 -1x +5`. -/
theorem format_spec (p : Poly) (h : ∃ e : Int, getCoeff p e ≠ 0) :
    format p = specFormat p ∧
    (∀ out : String, output out p = out ++ specFormat p) ∧
    '\n' ∉ (format p).data ∧
    format (setCoeff (setCoeff (setCoeff ctorDefault 3 2) (-1) 1) 5 0) = " +3x^2 -1x +5" := by
  have hany : (List.range (p.maxExponent + 1).toNat).reverse.any
      (fun (e : Nat) => getCoeff p (e : Int) ≠ 0) = true := by
    obtain ⟨e, he⟩ := h
    have h0 : 0 ≤ e := by
      by_contra hn
      exact he (getCoeff_of_neg p e (by omega))
    have h1 : e ≤ p.maxExponent := by
      by_contra hn
      exact he (getCoeff_of_gt p e (by omega))
    rw [List.any_eq_true]
    refine ⟨e.toNat, ?_, ?_⟩
    · rw [List.mem_reverse, List.mem_range]; omega
    · rw [Int.toNat_of_nonneg h0]; simpa using he
  have hout : ∀ out : String, output out p = out ++ specFormat p := by
    intro out
    rw [output_eq, if_pos hany]
  have hfmt : format p = specFormat p := by
    unfold format
    rw [hout]
    exact String.empty_append _
  refine ⟨hfmt, hout, ?_, by decide⟩
  rw [hfmt]
  exact newline_not_mem_specFormat p

/-- Instance of C10: the object with buffer `[5, -1, 3]`, that is 3x^2 - x + 5. -/
theorem format_spec_witness :
    (∃ e : Int, getCoeff ⟨[5, -1, 3], 2⟩ e ≠ 0) ∧
    format ⟨[5, -1, 3], 2⟩ = specFormat ⟨[5, -1, 3], 2⟩ ∧
    specFormat ⟨[5, -1, 3], 2⟩ = " +3x^2 -1x +5" :=
  ⟨⟨0, by decide⟩, (format_spec ⟨[5, -1, 3], 2⟩ ⟨0, by decide⟩).1, by decide⟩

/-! ## Textual output of zero and of equal values (C11, C20) -/

theorem any_nonzero_iff (p : Poly) :
    (List.range (p.maxExponent + 1).toNat).reverse.any
        (fun (e : Nat) => getCoeff p (e : Int) ≠ 0) = true
      ↔ ∃ e : Int, getCoeff p e ≠ 0 := by
  rw [List.any_eq_true]
  constructor
  · rintro ⟨x, _, hx⟩
    exact ⟨(x : Int), by simpa using hx⟩
  · rintro ⟨e, he⟩
    have h0 : 0 ≤ e := by
      by_contra hn
      exact he (getCoeff_of_neg p e (by omega))
    have h1 : e ≤ p.maxExponent := by
      by_contra hn
      exact he (getCoeff_of_gt p e (by omega))
    refine ⟨e.toNat, ?_, ?_⟩
    · rw [List.mem_reverse, List.mem_range]; omega
    · rw [Int.toNat_of_nonneg h0]; simpa using he

theorem output_of_exists (out : String) (p : Poly) (h : ∃ e : Int, getCoeff p e ≠ 0) :
    output out p = out ++ specFormat p := by
  rw [output_eq, if_pos ((any_nonzero_iff p).mpr h)]

theorem specFormat_of_all_zero (p : Poly) (h : ∀ e : Int, getCoeff p e = 0) :
    specFormat p = "" := by
  unfold specFormat
  have hf : (List.range (p.maxExponent + 1).toNat).reverse.filter
      (fun (e : Nat) => getCoeff p (e : Int) ≠ 0) = [] := by
    rw [List.filter_eq_nil_iff]
    intro x _
    simp [h]
  rw [hf]
  rfl

theorem output_of_all_zero (out : String) (p : Poly) (h : ∀ e : Int, getCoeff p e = 0) :
    output out p = out ++ " 0" := by
  have hany : ¬ ((List.range (p.maxExponent + 1).toNat).reverse.any
      (fun (e : Nat) => getCoeff p (e : Int) ≠ 0) = true) := by
    rw [any_nonzero_iff]
    rintro ⟨e, he⟩
    exact he (h e)
  rw [output_eq, if_neg hany, specFormat_of_all_zero p h, String.append_empty]

theorem getCoeff_all_zero_of_stored (p : Poly)
    (h : ∀ e : Int, 0 ≤ e → e ≤ p.maxExponent → getCoeff p e = 0) (e : Int) :
    getCoeff p e = 0 := by
  by_cases h0 : e < 0
  · exact getCoeff_of_neg p e h0
  · by_cases h1 : p.maxExponent < e
    · exact getCoeff_of_gt p e h1
    · exact h e (by omega) (by omega)

theorem getCoeff_sub_self (a : Poly) (ha : StorageInv a) (e : Int) :
    getCoeff (sub a a) e = 0 := by
  rw [getCoeff_sub a a ha]
  by_cases h : 0 ≤ e ∧ e ≤ a.maxExponent
  · rw [if_pos h, sub_self]; rfl
  · rw [if_neg h]
    by_cases h0 : e < 0
    · exact getCoeff_of_neg a e h0
    · exact getCoeff_of_gt a e (by omega)

/-- C11. An object whose stored coefficients are all zero prints as the two characters
` 0`, whatever its `maxExponent`: so do `Poly()`, `Poly(0, n)` for every `n`, and the
difference `a - a` of an object with itself. On a stream that holds `out`, ` 0` is
appended to `out`. -/
theorem format_zero_spec (p : Poly)
    (h : ∀ e : Int, 0 ≤ e → e ≤ p.maxExponent → getCoeff p e = 0) :
    format p = " 0" ∧
    (∀ out : String, output out p = out ++ " 0") ∧
    format ctorDefault = " 0" ∧
    (∀ n : Int, format (ctor 0 n) = " 0") ∧
    (∀ a : Poly, StorageInv a → format (sub a a) = " 0") := by
  have hz : ∀ q : Poly, (∀ e : Int, getCoeff q e = 0) → format q = " 0" := by
    intro q hq
    unfold format
    rw [output_of_all_zero "" q hq]
    rfl
  refine ⟨hz p (getCoeff_all_zero_of_stored p h),
    fun out => output_of_all_zero out p (getCoeff_all_zero_of_stored p h),
    hz _ getCoeff_ctorDefault, fun n => hz _ (fun e => ?_),
    fun a ha => hz _ (getCoeff_sub_self a ha)⟩
  rw [getCoeff_ctor]
  split <;> rfl

/-- Instance of C11: the all-zero object with stored degree 3. -/
theorem format_zero_spec_witness :
    (∀ e : Int, 0 ≤ e → e ≤ 3 → getCoeff ⟨[0, 0, 0, 0], 3⟩ e = 0) ∧
    format ⟨[0, 0, 0, 0], 3⟩ = " 0" :=
  ⟨fun e h0 h3 => by
      have h : e = 0 ∨ e = 1 ∨ e = 2 ∨ e = 3 := by omega
      rcases h with rfl | rfl | rfl | rfl <;> rfl,
   (format_zero_spec ⟨[0, 0, 0, 0], 3⟩ (fun e h0 h3 => by
      have h3 : e ≤ 3 := h3
      have h : e = 0 ∨ e = 1 ∨ e = 2 ∨ e = 3 := by omega
      rcases h with rfl | rfl | rfl | rfl <;> rfl)).1⟩

theorem filter_range_extend (p : Poly) (d : Nat) :
    (List.range ((p.maxExponent + 1).toNat + d)).filter
        (fun (e : Nat) => getCoeff p (e : Int) ≠ 0)
      = (List.range (p.maxExponent + 1).toNat).filter
        (fun (e : Nat) => getCoeff p (e : Int) ≠ 0) := by
  induction d with
  | zero => rfl
  | succ d ih =>
    rw [← Nat.add_assoc, List.range_succ, List.filter_append, ih]
    have hz : getCoeff p (((p.maxExponent + 1).toNat + d : Nat) : Int) = 0 :=
      getCoeff_of_gt p _ (by omega)
    rw [List.filter_cons_of_neg (by simpa using hz), List.filter_nil, List.append_nil]

/-- The text of the specification computed over any range of exponents that covers
`0..maxExponent`. -/
theorem specFormat_eq_of_le (p : Poly) (N : Nat) (hN : (p.maxExponent + 1).toNat ≤ N) :
    specFormat p = String.join
      (((List.range N).reverse.filter (fun (e : Nat) => getCoeff p (e : Int) ≠ 0)).map
        (fun (e : Nat) => specToken (getCoeff p (e : Int)) (e : Int))) := by
  obtain ⟨d, rfl⟩ := Nat.exists_eq_add_of_le hN
  unfold specFormat
  rw [List.filter_reverse, List.filter_reverse, filter_range_extend]

theorem specFormat_congr (p q : Poly) (h : ∀ e : Int, getCoeff p e = getCoeff q e) :
    specFormat p = specFormat q := by
  rw [specFormat_eq_of_le p (max (p.maxExponent + 1).toNat (q.maxExponent + 1).toNat)
      (le_max_left _ _),
    specFormat_eq_of_le q (max (p.maxExponent + 1).toNat (q.maxExponent + 1).toNat)
      (le_max_right _ _)]
  have h1 : (fun (e : Nat) => decide (getCoeff p (e : Int) ≠ 0))
      = (fun (e : Nat) => decide (getCoeff q (e : Int) ≠ 0)) := by
    funext e; rw [h]
  have h2 : (fun (e : Nat) => specToken (getCoeff p (e : Int)) (e : Int))
      = (fun (e : Nat) => specToken (getCoeff q (e : Int)) (e : Int)) := by
    funext e; rw [h]
  rw [h1, h2]

theorem output_congr (out : String) (p q : Poly)
    (h : ∀ e : Int, getCoeff p e = getCoeff q e) : output out p = output out q := by
  by_cases hex : ∃ e : Int, getCoeff p e ≠ 0
  · have hexq : ∃ e : Int, getCoeff q e ≠ 0 := by
      obtain ⟨e, he⟩ := hex
      exact ⟨e, by rwa [← h]⟩
    rw [output_of_exists out p hex, output_of_exists out q hexq, specFormat_congr p q h]
  · have hz : ∀ e : Int, getCoeff p e = 0 := by
      intro e
      by_contra hne
      exact hex ⟨e, hne⟩
    rw [output_of_all_zero out p hz, output_of_all_zero out q (fun e => by rw [← h]; exact hz e)]

/-- C20. The text depends on the values only: objects that read the same at every
integer exponent print the same text, character for character, on any stream, also when
their `maxExponent` differ and `operator==` is therefore false, as for `[1, 2, 0]` with
stored degree 2 and `[1, 2]` with stored degree 1. -/
theorem format_value_spec (p q : Poly) (h : ∀ e : Int, getCoeff p e = getCoeff q e) :
    format p = format q ∧
    (∀ out : String, output out p = output out q) ∧
    (p.maxExponent ≠ q.maxExponent → eq p q = false ∧ format p = format q) ∧
    (eq ⟨[1, 2, 0], 2⟩ ⟨[1, 2], 1⟩ = false ∧
      format ⟨[1, 2, 0], 2⟩ = " +2x +1" ∧ format ⟨[1, 2], 1⟩ = " +2x +1") := by
  refine ⟨output_congr "" p q h, fun out => output_congr out p q h, fun hne => ?_,
    by decide, by decide, by decide⟩
  refine ⟨?_, output_congr "" p q h⟩
  unfold eq
  rw [if_neg hne]

/-- Instance of C20: `Poly(0, 5)` and `Poly()` read 0 everywhere and print the same. -/
theorem format_value_spec_witness :
    (∀ e : Int, getCoeff (ctor 0 5) e = getCoeff ctorDefault e) ∧
    format (ctor 0 5) = format ctorDefault ∧
    eq (ctor 0 5) ctorDefault = false :=
  ⟨fun e => by rw [getCoeff_ctorDefault, getCoeff_ctor]; split <;> rfl,
   (format_value_spec (ctor 0 5) ctorDefault
     (fun e => by rw [getCoeff_ctorDefault, getCoeff_ctor]; split <;> rfl)).1,
   by decide⟩

/-! ## Textual input (C12) -/

theorem input_cons_cons (coeff exponent : Int) (rest : List Int) (p : Poly) :
    input (coeff :: exponent :: rest) p
      = if coeff = -1 ∧ exponent = -1 then some (rest, p)
        else input rest (setCoeff p coeff exponent) := by
  rw [input]

theorem getCoeff_setCoeff_of_ne (p : Poly) (coeff exponent : Int) (hp : StorageInv p)
    (k : Int) (hk : k ≠ exponent) :
    getCoeff (setCoeff p coeff exponent) k = getCoeff p k := by
  by_cases h : 0 ≤ exponent
  · rw [getCoeff_setCoeff p coeff exponent hp h, if_neg hk]
  · rw [setCoeff_of_neg p coeff exponent (by omega)]

theorem storageInv_applyPairs (ps : List (Int × Int)) :
    ∀ p : Poly, StorageInv p → StorageInv (applyPairs ps p) := by
  induction ps with
  | nil => intro p hp; exact hp
  | cons pr ps ih =>
    intro p hp
    exact ih _ (storageInv_setCoeff p pr.1 pr.2 hp)

theorem getCoeff_applyPairs_of_unnamed (ps : List (Int × Int)) (k : Int) :
    ∀ p : Poly, StorageInv p → (∀ pr ∈ ps, pr.2 ≠ k) →
      getCoeff (applyPairs ps p) k = getCoeff p k := by
  induction ps with
  | nil => intro p _ _; rfl
  | cons pr ps ih =>
    intro p hp h
    have h1 : pr.2 ≠ k := h pr (List.mem_cons_self _ _)
    have h2 : ∀ x ∈ ps, x.2 ≠ k := fun x hx => h x (List.mem_cons_of_mem _ hx)
    show getCoeff (applyPairs ps (setCoeff p pr.1 pr.2)) k = getCoeff p k
    rw [ih _ (storageInv_setCoeff p pr.1 pr.2 hp) h2,
      getCoeff_setCoeff_of_ne p pr.1 pr.2 hp k (Ne.symm h1)]

theorem input_tokensOf (ps : List (Int × Int)) (rest : List Int) :
    ∀ p : Poly, (∀ pr ∈ ps, pr ≠ (-1, -1)) →
      input (tokensOf ps ++ [-1, -1] ++ rest) p = some (rest, applyPairs ps p) := by
  induction ps with
  | nil =>
    intro p _
    show input (-1 :: -1 :: rest) p = some (rest, p)
    rw [input_cons_cons, if_pos ⟨rfl, rfl⟩]
  | cons pr ps ih =>
    intro p h
    have h1 : pr ≠ (-1, -1) := h pr (List.mem_cons_self _ _)
    have h2 : ∀ x ∈ ps, x ≠ (-1, -1) := fun x hx => h x (List.mem_cons_of_mem _ hx)
    have hne : ¬ (pr.1 = -1 ∧ pr.2 = -1) := by
      rintro ⟨ha, hb⟩
      exact h1 (Prod.ext ha hb)
    show input (pr.1 :: pr.2 :: (tokensOf ps ++ [-1, -1] ++ rest)) p
      = some (rest, applyPairs ps (setCoeff p pr.1 pr.2))
    rw [input_cons_cons, if_neg hne]
    exact ih _ h2

/-- C12. Reading the tokens of the pairs `ps`, none of them `(-1, -1)`, followed by
`-1 -1` and by any further tokens `rest`, ends with the object that `setCoeff(coeff,
exponent)` applied for each pair of `ps` in order gives, and with exactly `rest` left in
the stream: the sentinel is consumed and not stored, nothing after it is read. A pair
with a single `-1`, as `(-1, 3)` or `(5, -1)`, does not end the input. Exponents that no
pair names keep their coefficient. -/
theorem input_spec (p : Poly) (ps : List (Int × Int)) (rest : List Int)
    (h : ∀ pr ∈ ps, pr ≠ (-1, -1)) :
    input (tokensOf ps ++ [-1, -1] ++ rest) p = some (rest, applyPairs ps p) ∧
    (StorageInv p → ∀ k : Int, (∀ pr ∈ ps, pr.2 ≠ k) →
      getCoeff (applyPairs ps p) k = getCoeff p k) ∧
    input [-1, 3, 5, -1, 4, 1, -1, -1, 8, 8] ⟨[7, 0, 9], 2⟩
      = some ([8, 8], ⟨[7, 4, 9, -1], 3⟩) :=
  ⟨input_tokensOf ps rest p h,
   fun hp k hk => getCoeff_applyPairs_of_unnamed ps k p hp hk,
   by decide⟩

/-- Instance of C12: the pairs (3,2), (-1,1), (5,0), the sentinel and two more tokens,
read into `Poly()`. -/
theorem input_spec_witness :
    (∀ pr ∈ [((3 : Int), (2 : Int)), (-1, 1), (5, 0)], pr ≠ (-1, -1)) ∧
    input [3, 2, -1, 1, 5, 0, -1, -1, 6, 6] ctorDefault
      = some ([6, 6], applyPairs [(3, 2), (-1, 1), (5, 0)] ctorDefault) ∧
    applyPairs [(3, 2), (-1, 1), (5, 0)] ctorDefault = ⟨[5, -1, 3], 2⟩ :=
  ⟨by decide,
   (input_spec ctorDefault [(3, 2), (-1, 1), (5, 0)] [6, 6] (by decide)).1,
   by decide⟩

/-! ## Adding and subtracting the same operand (C13, C14) -/

theorem wrapInt_add_sub_cancel (x y : Int) (hx : IsInt x) :
    wrapInt (wrapInt (x + y) - y) = x := by
  unfold IsInt INT_MIN INT_MAX at hx
  unfold wrapInt
  omega

theorem getCoeff_sub_add (a b : Poly) (ha : StorageInv a) (hai : CoeffsInt a) (e : Int) :
    getCoeff (sub (add a b) b) e = getCoeff a e := by
  rw [getCoeff_sub (add a b) b (storageInv_add a b ha), getCoeff_add a b ha]
  by_cases h : 0 ≤ e ∧ e ≤ b.maxExponent
  · rw [if_pos h, if_pos h, wrapInt_add_sub_cancel _ _ (isInt_getCoeff a hai e)]
  · rw [if_neg h, if_neg h]

theorem maxExponent_sub_add (a b : Poly) (ha : StorageInv a) :
    (sub (add a b) b).maxExponent = max a.maxExponent b.maxExponent := by
  rw [maxExponent_sub (add a b) b (storageInv_add a b ha), maxExponent_add a b ha]
  omega

/-- C13. At every integer exponent `(a + b) - b` reads what `a` reads, whichever of the
two has the larger stored degree. -/
theorem sub_add_value_spec (a b : Poly) (ha : StorageInv a) (hai : CoeffsInt a) (e : Int) :
    getCoeff (sub (add a b) b) e = getCoeff a e := by
  have hsum : StorageInv (add a b) := storageInv_add a b ha
  rw [getCoeff_sub (add a b) b hsum, getCoeff_add a b ha]
  by_cases h : 0 ≤ e ∧ e ≤ b.maxExponent
  · have hint : IsInt (getCoeff a e) := isInt_getCoeff a hai e
    rw [if_pos h, if_pos h]
    exact wrapInt_add_sub_cancel _ _ hint
  · rw [if_neg h, if_neg h]

/-- Instance of C13: `a = [1, 2]`, `b = [5, 0, 7]` of larger stored degree, exponents 1
and 2; and an overflowing sum, `a = [2147483647]`, `b = [1]`. -/
theorem sub_add_value_spec_witness :
    StorageInv ⟨[1, 2], 1⟩ ∧ CoeffsInt ⟨[1, 2], 1⟩ ∧
    getCoeff (sub (add ⟨[1, 2], 1⟩ ⟨[5, 0, 7], 2⟩) ⟨[5, 0, 7], 2⟩) 1 = getCoeff ⟨[1, 2], 1⟩ 1 ∧
    getCoeff (sub (add ⟨[1, 2], 1⟩ ⟨[5, 0, 7], 2⟩) ⟨[5, 0, 7], 2⟩) 2 = getCoeff ⟨[1, 2], 1⟩ 2 ∧
    getCoeff (sub (add ⟨[2147483647], 0⟩ ⟨[1], 0⟩) ⟨[1], 0⟩) 0 = getCoeff ⟨[2147483647], 0⟩ 0 :=
  ⟨by decide, by decide,
   sub_add_value_spec ⟨[1, 2], 1⟩ ⟨[5, 0, 7], 2⟩ (by decide) (by decide) 1,
   sub_add_value_spec ⟨[1, 2], 1⟩ ⟨[5, 0, 7], 2⟩ (by decide) (by decide) 2,
   sub_add_value_spec ⟨[2147483647], 0⟩ ⟨[1], 0⟩ (by decide) (by decide) 0⟩

/-- C14. Under the structural `operator==`, `(a + b) - b == a` is false whenever
`b.maxExponent > a.maxExponent`, the result keeping the larger stored degree of `b`, and
true whenever `b.maxExponent <= a.maxExponent`; so it does not hold for every `a` and
`b`, as for `a = Poly()` and `b = Poly(0, 1)`. -/
theorem sub_add_eq_spec (a b : Poly) (ha : StorageInv a) (hai : CoeffsInt a) :
    (b.maxExponent > a.maxExponent → eq (sub (add a b) b) a = false) ∧
    (b.maxExponent > a.maxExponent → (sub (add a b) b).maxExponent = b.maxExponent) ∧
    (b.maxExponent ≤ a.maxExponent → eq (sub (add a b) b) a = true) ∧
    eq (sub (add ctorDefault (ctor 0 1)) (ctor 0 1)) ctorDefault = false := by
  have hmax := maxExponent_sub_add a b ha
  refine ⟨fun h => ?_, fun h => ?_, fun h => ?_, by decide⟩
  · unfold eq
    rw [if_neg (by rw [hmax]; omega)]
  · rw [hmax]; omega
  · rw [eq_iff]
    exact ⟨by rw [hmax]; omega, fun i _ _ => getCoeff_sub_add a b ha hai i⟩

/-- Instance of C14: `a = [1, 2]` against `b = [5, 0, 7]` of larger stored degree, and
against `b = [5]` of smaller. -/
theorem sub_add_eq_spec_witness :
    StorageInv ⟨[1, 2], 1⟩ ∧ CoeffsInt ⟨[1, 2], 1⟩ ∧
    eq (sub (add ⟨[1, 2], 1⟩ ⟨[5, 0, 7], 2⟩) ⟨[5, 0, 7], 2⟩) ⟨[1, 2], 1⟩ = false ∧
    eq (sub (add ⟨[1, 2], 1⟩ ⟨[5], 0⟩) ⟨[5], 0⟩) ⟨[1, 2], 1⟩ = true :=
  ⟨by decide, by decide,
   (sub_add_eq_spec ⟨[1, 2], 1⟩ ⟨[5, 0, 7], 2⟩ (by decide) (by decide)).1 (by decide),
   (sub_add_eq_spec ⟨[1, 2], 1⟩ ⟨[5], 0⟩ (by decide) (by decide)).2.2.1 (by decide)⟩

/-! ## Arithmetic modulo 2^32 and the convolution sum -/

theorem wrapInt_eq_iff (x y : Int) :
    wrapInt x = wrapInt y ↔ x % 4294967296 = y % 4294967296 := by
  unfold wrapInt
  constructor <;> intro h <;> omega

theorem wrapInt_emod (x : Int) : wrapInt x % 4294967296 = x % 4294967296 := by
  unfold wrapInt; omega

theorem wrapInt_wrapInt (x : Int) : wrapInt (wrapInt x) = wrapInt x := by
  unfold wrapInt; omega

theorem wrapInt_add_left (x y : Int) : wrapInt (wrapInt x + y) = wrapInt (x + y) := by
  unfold wrapInt; omega

theorem wrapInt_add_right (x y : Int) : wrapInt (x + wrapInt y) = wrapInt (x + y) := by
  unfold wrapInt; omega

theorem wrapInt_mul_wrapInt (x y : Int) : wrapInt (x * wrapInt y) = wrapInt (x * y) := by
  rw [wrapInt_eq_iff, Int.mul_emod, wrapInt_emod, ← Int.mul_emod]

/-- Sums whose terms agree modulo 2^32 agree modulo 2^32. -/
theorem wrapInt_sum_congr (l : List Nat) (f g : Nat → Int)
    (h : ∀ i ∈ l, wrapInt (f i) = wrapInt (g i)) :
    wrapInt ((l.map f).sum) = wrapInt ((l.map g).sum) := by
  induction l with
  | nil => rfl
  | cons x xs ih =>
    rw [List.map_cons, List.sum_cons, List.map_cons, List.sum_cons,
      ← wrapInt_add_wrapInt (f x), ← wrapInt_add_wrapInt (g x),
      h x (List.mem_cons_self _ _), ih (fun i hi => h i (List.mem_cons_of_mem _ hi))]

/-- The convolution sum as a single sum over the left exponent. -/
theorem convolution_eq_single (a b : Poly) (k : Int) :
    convolution a b k
      = ((List.range (a.maxExponent + 1).toNat).map
          (fun (i : Nat) => getCoeff a (i : Int) * getCoeff b (k - (i : Int)))).sum := by
  unfold convolution
  congr 1
  apply List.map_congr_left
  intro i _
  rw [sum_convTerm_row]
  by_cases h : (i : Int) ≤ k ∧ k < (i : Int) + ((b.maxExponent + 1).toNat : Int)
  · rw [if_pos h]
  · rw [if_neg h]
    have hb : getCoeff b (k - (i : Int)) = 0 := by
      by_cases h0 : k - (i : Int) < 0
      · exact getCoeff_of_neg b _ h0
      · exact getCoeff_of_gt b _ (by omega)
    rw [hb, mul_zero]

/-- A sum over `0..n-1` with a single term that is not zero. -/
theorem sum_map_ite_eq (n : Nat) (k : Int) (f : Nat → Int) :
    ((List.range n).map (fun (i : Nat) => if (i : Int) = k then f i else 0)).sum
      = if 0 ≤ k ∧ k < (n : Int) then f k.toNat else 0 := by
  induction n with
  | zero => rw [if_neg (by omega)]; rfl
  | succ n ih =>
    rw [List.range_succ, List.map_append, List.sum_append, ih, List.map_singleton,
      List.sum_singleton]
    by_cases h1 : (n : Int) = k
    · have h2 : k.toNat = n := by omega
      rw [if_pos h1, if_neg (by omega), if_pos (by omega), h2, zero_add]
    · rw [if_neg h1, add_zero]
      by_cases h3 : 0 ≤ k ∧ k < (n : Int)
      · rw [if_pos h3, if_pos (by omega)]
      · rw [if_neg h3, if_neg (by omega)]

/-- Exchange of the two sums of a double sum over lists. -/
theorem sum_map_sum_comm (l₁ l₂ : List Nat) (f : Nat → Nat → Int) :
    (l₁.map (fun i => (l₂.map (fun j => f i j)).sum)).sum
      = (l₂.map (fun j => (l₁.map (fun i => f i j)).sum)).sum := by
  induction l₁ with
  | nil =>
    simp only [List.map_nil, List.sum_nil]
    induction l₂ with
    | nil => rfl
    | cons y ys ih => rw [List.map_cons, List.sum_cons, ← ih, add_zero]
  | cons x xs ih =>
    rw [List.map_cons, List.sum_cons, ih]
    simp only [List.map_cons, List.sum_cons]
    rw [List.sum_map_add]

theorem convolution_comm (a b : Poly) (k : Int) : convolution a b k = convolution b a k := by
  unfold convolution
  rw [sum_map_sum_comm]
  congr 1
  apply List.map_congr_left
  intro j _
  congr 1
  apply List.map_congr_left
  intro i _
  unfold convTerm
  rw [add_comm (i : Int) (j : Int), mul_comm]

theorem getCoeff_add_wrap (a b : Poly) (ha : StorageInv a) (e : Int)
    (hint : IsInt (getCoeff a e)) :
    getCoeff (add a b) e = wrapInt (getCoeff a e + getCoeff b e) := by
  rw [getCoeff_add a b ha]
  by_cases h : 0 ≤ e ∧ e ≤ b.maxExponent
  · rw [if_pos h]
  · rw [if_neg h]
    have hb : getCoeff b e = 0 := by
      by_cases h0 : e < 0
      · exact getCoeff_of_neg b e h0
      · exact getCoeff_of_gt b e (by omega)
    rw [hb, add_zero, wrapInt_of_isInt hint]

theorem getCoeff_add_comm (a b : Poly) (ha : StorageInv a) (hb : StorageInv b)
    (hai : CoeffsInt a) (hbi : CoeffsInt b) (e : Int) :
    getCoeff (add a b) e = getCoeff (add b a) e := by
  rw [getCoeff_add_wrap a b ha e (isInt_getCoeff a hai e),
    getCoeff_add_wrap b a hb e (isInt_getCoeff b hbi e), add_comm]

theorem getCoeff_mul_comm (a b : Poly) (e : Int) :
    getCoeff (mul a b) e = getCoeff (mul b a) e := by
  rw [getCoeff_mul, getCoeff_mul, convolution_comm]

/-! ## Commutativity, distributivity and the identity (C15, C16, C17, C19) -/

/-- C15. Addition and multiplication are commutative coefficient-wise: at every integer
exponent `a + b` reads what `b + a` reads, and `a * b` reads what `b * a` reads. -/
theorem comm_value_spec (a b : Poly) (ha : StorageInv a) (hb : StorageInv b)
    (hai : CoeffsInt a) (hbi : CoeffsInt b) (e : Int) :
    getCoeff (add a b) e = getCoeff (add b a) e ∧
    getCoeff (mul a b) e = getCoeff (mul b a) e := by
  constructor
  · have h1 := getCoeff_add_wrap a b ha e (isInt_getCoeff a hai e)
    have h2 := getCoeff_add_wrap b a hb e (isInt_getCoeff b hbi e)
    rw [h1, h2, add_comm]
  · rw [getCoeff_mul, getCoeff_mul, convolution_comm]

/-- Instance of C15: `[1, 2]` and `[5, 0, 7]` at exponent 2. -/
theorem comm_value_spec_witness :
    StorageInv ⟨[1, 2], 1⟩ ∧ StorageInv ⟨[5, 0, 7], 2⟩ ∧
    CoeffsInt ⟨[1, 2], 1⟩ ∧ CoeffsInt ⟨[5, 0, 7], 2⟩ ∧
    getCoeff (add ⟨[1, 2], 1⟩ ⟨[5, 0, 7], 2⟩) 2 = getCoeff (add ⟨[5, 0, 7], 2⟩ ⟨[1, 2], 1⟩) 2 ∧
    getCoeff (mul ⟨[1, 2], 1⟩ ⟨[5, 0, 7], 2⟩) 2 = getCoeff (mul ⟨[5, 0, 7], 2⟩ ⟨[1, 2], 1⟩) 2 ∧
    getCoeff (mul ⟨[1, 2], 1⟩ ⟨[5, 0, 7], 2⟩) 2 = 7 :=
  ⟨by decide, by decide, by decide, by decide,
   (comm_value_spec ⟨[1, 2], 1⟩ ⟨[5, 0, 7], 2⟩ (by decide) (by decide) (by decide)
     (by decide) 2).1,
   (comm_value_spec ⟨[1, 2], 1⟩ ⟨[5, 0, 7], 2⟩ (by decide) (by decide) (by decide)
     (by decide) 2).2,
   by decide⟩

/-- C16. Multiplication distributes over addition coefficient-wise: at every integer
exponent `a * (b + c)` reads what `(a * b) + (a * c)` reads, whatever the stored degrees
of `b` and `c`. -/
theorem distrib_spec (a b c : Poly) (hb : StorageInv b) (hbi : CoeffsInt b) (e : Int) :
    getCoeff (mul a (add b c)) e = getCoeff (add (mul a b) (mul a c)) e := by
  have hl : getCoeff (mul a b) e = wrapInt (convolution a b e) := getCoeff_mul a b e
  have hint : IsInt (getCoeff (mul a b) e) := by rw [hl]; exact isInt_wrapInt _
  rw [getCoeff_add_wrap (mul a b) (mul a c) (storageInv_mul a b) e hint,
    getCoeff_mul, getCoeff_mul, getCoeff_mul, wrapInt_add_wrapInt,
    convolution_eq_single, convolution_eq_single, convolution_eq_single,
    ← List.sum_map_add]
  apply wrapInt_sum_congr
  intro i _
  rw [getCoeff_add_wrap b c hb _ (isInt_getCoeff b hbi _), wrapInt_mul_wrapInt, mul_add]

/-- Instance of C16: `a = [1, 2]`, `b = [3]` and `c = [0, 0, 4]` of different stored
degrees, at exponent 3. -/
theorem distrib_spec_witness :
    StorageInv ⟨[3], 0⟩ ∧ CoeffsInt ⟨[3], 0⟩ ∧
    getCoeff (mul ⟨[1, 2], 1⟩ (add ⟨[3], 0⟩ ⟨[0, 0, 4], 2⟩)) 3
      = getCoeff (add (mul ⟨[1, 2], 1⟩ ⟨[3], 0⟩) (mul ⟨[1, 2], 1⟩ ⟨[0, 0, 4], 2⟩)) 3 ∧
    getCoeff (mul ⟨[1, 2], 1⟩ (add ⟨[3], 0⟩ ⟨[0, 0, 4], 2⟩)) 3 = 8 :=
  ⟨by decide, by decide,
   distrib_spec ⟨[1, 2], 1⟩ ⟨[3], 0⟩ ⟨[0, 0, 4], 2⟩ (by decide) (by decide) 3,
   by decide⟩

theorem convolution_one_right (a : Poly) (e : Int) :
    convolution a (ctor 1 0) e = getCoeff a e := by
  rw [convolution_eq_single]
  have hterm : ∀ i : Nat, getCoeff a (i : Int) * getCoeff (ctor 1 0) (e - (i : Int))
      = if (i : Int) = e then getCoeff a (i : Int) else 0 := by
    intro i
    rw [getCoeff_ctor]
    by_cases h : (i : Int) = e
    · rw [if_pos (by omega), if_pos h, mul_one]
    · rw [if_neg (by omega), if_neg h, mul_zero]
  rw [List.map_congr_left (fun i _ => hterm i),
    sum_map_ite_eq _ e (fun i => getCoeff a (i : Int))]
  by_cases h : 0 ≤ e ∧ e < (((a.maxExponent + 1).toNat : Nat) : Int)
  · rw [if_pos h, Int.toNat_of_nonneg h.1]
  · rw [if_neg h]
    by_cases h0 : e < 0
    · exact (getCoeff_of_neg a e h0).symm
    · exact (getCoeff_of_gt a e (by omega)).symm

/-- C17. Multiplying by the constant polynomial `Poly(1, 0)` on either side leaves every
coefficient as it is, at every integer exponent. -/
theorem mul_one_spec (a : Poly) (hai : CoeffsInt a) (e : Int) :
    getCoeff (mul a (ctor 1 0)) e = getCoeff a e ∧
    getCoeff (mul (ctor 1 0) a) e = getCoeff a e := by
  have hint : IsInt (getCoeff a e) := isInt_getCoeff a hai e
  have hr : getCoeff (mul a (ctor 1 0)) e = getCoeff a e := by
    rw [getCoeff_mul, convolution_one_right, wrapInt_of_isInt hint]
  refine ⟨hr, ?_⟩
  rw [getCoeff_mul, convolution_comm, convolution_one_right, wrapInt_of_isInt hint]

/-- Instance of C17: `[4, -5, 6]` times `Poly(1, 0)` at exponent 1. -/
theorem mul_one_spec_witness :
    CoeffsInt ⟨[4, -5, 6], 2⟩ ∧
    getCoeff (mul ⟨[4, -5, 6], 2⟩ (ctor 1 0)) 1 = getCoeff ⟨[4, -5, 6], 2⟩ 1 ∧
    getCoeff (mul (ctor 1 0) ⟨[4, -5, 6], 2⟩) 1 = getCoeff ⟨[4, -5, 6], 2⟩ 1 ∧
    mul ⟨[4, -5, 6], 2⟩ (ctor 1 0) = ⟨[4, -5, 6], 2⟩ :=
  ⟨by decide,
   (mul_one_spec ⟨[4, -5, 6], 2⟩ (by decide) 1).1,
   (mul_one_spec ⟨[4, -5, 6], 2⟩ (by decide) 1).2,
   by decide⟩

theorem add_comm_obj (a b : Poly) (ha : StorageInv a) (hb : StorageInv b)
    (hai : CoeffsInt a) (hbi : CoeffsInt b) : add a b = add b a := by
  apply eq_of_getCoeff _ _ (storageInv_add a b ha) (storageInv_add b a hb)
  · rw [maxExponent_add a b ha, maxExponent_add b a hb, max_comm]
  · exact fun k => getCoeff_add_comm a b ha hb hai hbi k

theorem mul_comm_obj (a b : Poly) (ha : StorageInv a) (hb : StorageInv b) :
    mul a b = mul b a := by
  apply eq_of_getCoeff _ _ (storageInv_mul a b) (storageInv_mul b a)
  · rw [maxExponent_mul a b ha.1 hb.1, maxExponent_mul b a hb.1 ha.1, add_comm]
  · exact fun k => getCoeff_mul_comm a b k

/-- C19. Commutativity holds under the structural `operator==` too: `(a + b) == (b + a)`
and `(a * b) == (b * a)` are true. The two sums have stored degree `max(a.maxExponent,
b.maxExponent)`, the two products `a.maxExponent + b.maxExponent`, so the buffers have
the same size for every pair; the two sums are the same object and so are the two
products. -/
theorem comm_eq_spec (a b : Poly) (ha : StorageInv a) (hb : StorageInv b)
    (hai : CoeffsInt a) (hbi : CoeffsInt b) :
    eq (add a b) (add b a) = true ∧
    eq (mul a b) (mul b a) = true ∧
    (add a b).maxExponent = max a.maxExponent b.maxExponent ∧
    (add b a).maxExponent = max a.maxExponent b.maxExponent ∧
    (mul a b).maxExponent = a.maxExponent + b.maxExponent ∧
    (mul b a).maxExponent = a.maxExponent + b.maxExponent ∧
    (add a b).coeffPtr.length = (add b a).coeffPtr.length ∧
    (mul a b).coeffPtr.length = (mul b a).coeffPtr.length ∧
    add a b = add b a ∧
    mul a b = mul b a := by
  have hadd := add_comm_obj a b ha hb hai hbi
  have hmul := mul_comm_obj a b ha hb
  refine ⟨?_, ?_, maxExponent_add a b ha, ?_, maxExponent_mul a b ha.1 hb.1, ?_, ?_, ?_,
    hadd, hmul⟩
  · rw [hadd]; exact eq_self _
  · rw [hmul]; exact eq_self _
  · rw [maxExponent_add b a hb, max_comm]
  · rw [maxExponent_mul b a hb.1 ha.1, add_comm]
  · rw [hadd]
  · rw [hmul]

/-- Instance of C19: `[1, 2]` and `[5, 0, 7]`, of different stored degrees. -/
theorem comm_eq_spec_witness :
    StorageInv ⟨[1, 2], 1⟩ ∧ StorageInv ⟨[5, 0, 7], 2⟩ ∧
    CoeffsInt ⟨[1, 2], 1⟩ ∧ CoeffsInt ⟨[5, 0, 7], 2⟩ ∧
    eq (add ⟨[1, 2], 1⟩ ⟨[5, 0, 7], 2⟩) (add ⟨[5, 0, 7], 2⟩ ⟨[1, 2], 1⟩) = true ∧
    eq (mul ⟨[1, 2], 1⟩ ⟨[5, 0, 7], 2⟩) (mul ⟨[5, 0, 7], 2⟩ ⟨[1, 2], 1⟩) = true ∧
    add ⟨[1, 2], 1⟩ ⟨[5, 0, 7], 2⟩ = ⟨[6, 2, 7], 2⟩ ∧
    mul ⟨[1, 2], 1⟩ ⟨[5, 0, 7], 2⟩ = ⟨[5, 10, 7, 14], 3⟩ :=
  ⟨by decide, by decide, by decide, by decide,
   (comm_eq_spec ⟨[1, 2], 1⟩ ⟨[5, 0, 7], 2⟩ (by decide) (by decide) (by decide)
     (by decide)).1,
   (comm_eq_spec ⟨[1, 2], 1⟩ ⟨[5, 0, 7], 2⟩ (by decide) (by decide) (by decide)
     (by decide)).2.1,
   by decide, by decide⟩

/-! ## The storage invariant and the accesses to the buffer (C18) -/

theorem forLoopChecked_succ {σ : Type} (k : Nat) (body : Int → σ → Option σ) (s : σ) :
    forLoopChecked ((k : Int) + 1) body s = (forLoopChecked (k : Int) body s).bind (body k) := by
  have h : ((k : Int) + 1).toNat = k + 1 := by omega
  unfold forLoopChecked
  rw [h, Int.toNat_ofNat, List.range_succ, List.foldlM_append]
  cases List.foldlM (fun acc (i : Nat) => body (i : Int) acc) s (List.range k) with
  | none => rfl
  | some t => simp [List.foldlM]

theorem readChecked_of_lt (buf : List Int) (i : Int) (h0 : 0 ≤ i) (h : i < (buf.length : Int)) :
    readChecked buf i = some (readAt buf i) := by
  unfold readChecked; rw [if_pos ⟨h0, h⟩]

theorem writeChecked_of_lt (buf : List Int) (i v : Int) (h0 : 0 ≤ i)
    (h : i < (buf.length : Int)) : writeChecked buf i v = some (writeAt buf i v) := by
  unfold writeChecked; rw [if_pos ⟨h0, h⟩]

/-- The copy loop of `setCoeff` stays inside both buffers when neither is shorter than
the number of rounds. -/
theorem copyLoopChecked_eq (src : List Int) (k : Nat) (buf : List Int)
    (hs : k ≤ src.length) (hb : k ≤ buf.length) :
    forLoopChecked (k : Int)
        (fun power t => (readChecked src power).bind (fun v => writeChecked t power v)) buf
      = some (forLoop (k : Int) (fun power t => writeAt t power (readAt src power)) buf) := by
  induction k with
  | zero => rfl
  | succ k ih =>
    rw [Nat.cast_succ, forLoopChecked_succ, forLoop_succ, ih (by omega) (by omega)]
    have hlen := length_copyLoop src k buf
    simp only [Option.some_bind]
    rw [readChecked_of_lt src k (by omega) (by omega), Option.some_bind,
      writeChecked_of_lt _ k _ (by omega) (by omega)]

theorem getCoeffChecked_eq (p : Poly) (hp : StorageInv p) (e : Int) :
    getCoeffChecked p e = some (getCoeff p e) := by
  obtain ⟨h0, hlen⟩ := hp
  unfold getCoeffChecked getCoeff
  by_cases h : e < 0 ∨ e > p.maxExponent
  · rw [if_pos h, if_pos h]
  · rw [if_neg h, if_neg h, readChecked_of_lt _ _ (by omega) (by omega)]

theorem setCoeffChecked_eq (p : Poly) (hp : StorageInv p) (coeff exponent : Int) :
    setCoeffChecked p coeff exponent = some (setCoeff p coeff exponent) := by
  obtain ⟨h0, hlen⟩ := hp
  by_cases h : 0 ≤ exponent
  · by_cases h2 : exponent ≤ p.maxExponent
    · rw [setCoeff_of_fits p coeff exponent h h2]
      unfold setCoeffChecked
      rw [if_pos (by omega), if_neg (by omega), Option.some_bind,
        writeChecked_of_lt _ _ _ h (by omega)]
      rfl
    · have hm : p.maxExponent + 1 = ((p.maxExponent + 1).toNat : Int) := by omega
      rw [setCoeff_of_grows p coeff exponent h (by omega)]
      unfold setCoeffChecked
      rw [if_pos (by omega), if_pos (by omega), hm,
        copyLoopChecked_eq _ _ _ (by omega) (by rw [length_newArray]; omega)]
      simp only [Option.map_some', Option.some_bind]
      rw [writeChecked_of_lt _ _ _ h (by rw [length_copyLoop, length_newArray]; omega)]
      rfl
  · rw [setCoeff_of_neg p coeff exponent (by omega)]
    unfold setCoeffChecked
    rw [if_neg (by omega)]

theorem storageInv_copy (p : Poly) (hp : StorageInv p) : StorageInv (copy p) := by
  rw [copy_eq_self p hp]; exact hp

theorem storageInv_addAssign (a b : Poly) (ha : StorageInv a) : StorageInv (addAssign a b) := by
  rw [addAssign_eq_add a b ha]; exact storageInv_add a b ha

theorem storageInv_subAssign (a b : Poly) (ha : StorageInv a) : StorageInv (subAssign a b) := by
  rw [subAssign_eq_sub a b ha]; exact storageInv_sub a b ha

theorem storageInv_input (tokens : List Int) (p : Poly) :
    StorageInv p → ∀ r : List Int × Poly, input tokens p = some r → StorageInv r.2 := by
  induction tokens, p using input.induct with
  | case1 coeff exponent rest poly hstop =>
    intro hp r hr
    rw [input_cons_cons, if_pos hstop] at hr
    cases hr
    exact hp
  | case2 coeff exponent rest poly hcont ih =>
    intro hp r hr
    rw [input_cons_cons, if_neg hcont] at hr
    exact ih (storageInv_setCoeff poly coeff exponent hp) r hr
  | case3 tokens poly hshort =>
    intro _ r hr
    rw [input] at hr
    · cases hr
    · exact hshort

/-- C18. The storage invariant (`maxExponent >= 0` and a buffer of exactly
`maxExponent + 1` entries, hence never empty) holds for the objects of both constructors
and is kept by `setCoeff` for any exponent, by `+`, `-`, `*`, `+=`, `-=`, `*=`, the
copy-assignment and the textual input. Under it every read and write of `getCoeff` and
`setCoeff` lies inside the buffer: the accessors over the checked read and write give
the same results and never stop. -/
theorem storageInv_spec (a b : Poly) (ha : StorageInv a) (hb : StorageInv b) :
    (∀ c e : Int, StorageInv (ctor c e)) ∧
    StorageInv (copy a) ∧
    1 ≤ a.coeffPtr.length ∧
    (∀ c e : Int, StorageInv (setCoeff a c e)) ∧
    StorageInv (add a b) ∧
    StorageInv (sub a b) ∧
    StorageInv (mul a b) ∧
    StorageInv (addAssign a b) ∧
    StorageInv (subAssign a b) ∧
    (∃ r, addAssignSelf a = some r ∧ StorageInv r) ∧
    (∃ r, subAssignSelf a = some r ∧ StorageInv r) ∧
    (∃ r, mulAssign a b = some r ∧ StorageInv r) ∧
    (∃ r, assign a b false = some r ∧ StorageInv r) ∧
    (∃ r, assign a a true = some r ∧ StorageInv r) ∧
    (∀ (tokens : List Int) (r : List Int × Poly), input tokens a = some r → StorageInv r.2) ∧
    (∀ e : Int, getCoeffChecked a e = some (getCoeff a e)) ∧
    (∀ c e : Int, setCoeffChecked a c e = some (setCoeff a c e)) := by
  refine ⟨storageInv_ctor, storageInv_copy a ha, ?_, fun c e => storageInv_setCoeff a c e ha,
    storageInv_add a b ha, storageInv_sub a b ha, storageInv_mul a b,
    storageInv_addAssign a b ha, storageInv_subAssign a b ha,
    ⟨add a a, addAssignSelf_eq_add a ha, storageInv_add a a ha⟩,
    ⟨sub a a, subAssignSelf_eq_sub a ha, storageInv_sub a a ha⟩,
    ⟨mul a b, mulAssign_eq_mul a b, storageInv_mul a b⟩,
    ⟨b, assign_of_distinct a b hb, hb⟩, ⟨a, rfl, ha⟩,
    fun tokens r hr => storageInv_input tokens a ha r hr,
    fun e => getCoeffChecked_eq a ha e, fun c e => setCoeffChecked_eq a ha c e⟩
  have h0 := ha.1
  have hlen := ha.2
  omega

/-- Instance of C18: the objects `[1, 2]` and `[5, 0, 7]`; a growing `setCoeff` stays
inside the buffers, and on an object that breaks the invariant the checked accessors
stop. -/
theorem storageInv_spec_witness :
    StorageInv ⟨[1, 2], 1⟩ ∧ StorageInv ⟨[5, 0, 7], 2⟩ ∧
    StorageInv (mul ⟨[1, 2], 1⟩ ⟨[5, 0, 7], 2⟩) ∧
    setCoeffChecked ⟨[1, 2], 1⟩ 9 4 = some (setCoeff ⟨[1, 2], 1⟩ 9 4) ∧
    setCoeff ⟨[1, 2], 1⟩ 9 4 = ⟨[1, 2, 0, 0, 9], 4⟩ ∧
    getCoeffChecked ⟨[1], 3⟩ 2 = none ∧
    setCoeffChecked ⟨[1], 3⟩ 9 4 = none :=
  ⟨by decide, by decide,
   (storageInv_spec ⟨[1, 2], 1⟩ ⟨[5, 0, 7], 2⟩ (by decide) (by decide)).2.2.2.2.2.2.1,
   (storageInv_spec ⟨[1, 2], 1⟩ ⟨[5, 0, 7], 2⟩ (by decide)
     (by decide)).2.2.2.2.2.2.2.2.2.2.2.2.2.2.2.2 9 4,
   by decide, by decide, by decide⟩

end Poly

end PolyCpp
